import Mathlib

/-!
Verification of the compact-calendar rendering engine.

Calendar dates (chrono `NaiveDate`) are embedded as integer day numbers
(`Int`), counting days from 0000-01-01 of the proleptic Gregorian calendar;
`/` and `%` on `Int` are floor/Euclidean division, which agree on the
positive divisors used here.  Conversion functions between day numbers and
(year, month, day) triples are defined below and their characterizing
properties are proved; day arithmetic (`+ 1`, `≤`) on day numbers coincides
with chrono's date arithmetic.
-/

namespace CompactCalendar

/-! ## Definitions -/

/-- Days from 0000-01-01 to year `y`-01-01 in the proleptic Gregorian
calendar: 365 per year plus one per leap year in `[0, y)`. -/
def D (y : Int) : Int :=
  365 * y + (y + 3) / 4 - (y + 99) / 100 + (y + 399) / 400

/-- Gregorian leap-year test. -/
def isLeap (y : Int) : Bool :=
  decide ((y % 4 = 0 ∧ ¬ y % 100 = 0) ∨ y % 400 = 0)

/-- Numeric leap adjustment. -/
def leapAdj (leap : Bool) : Int := if leap then 1 else 0

/-- Days from `y`-01-01 to `y`-`m`-01 within one year. -/
def monthOffset (leap : Bool) (m : Int) : Int :=
  if m = 1 then 0 else if m = 2 then 31 else if m = 3 then 59 + leapAdj leap
  else if m = 4 then 90 + leapAdj leap else if m = 5 then 120 + leapAdj leap
  else if m = 6 then 151 + leapAdj leap else if m = 7 then 181 + leapAdj leap
  else if m = 8 then 212 + leapAdj leap else if m = 9 then 243 + leapAdj leap
  else if m = 10 then 273 + leapAdj leap else if m = 11 then 304 + leapAdj leap
  else 334 + leapAdj leap

/-- Length of month `m` in a (non-)leap year. -/
def daysInMonth (leap : Bool) (m : Int) : Int :=
  if m = 1 then 31 else if m = 2 then (if leap then 29 else 28) else if m = 3 then 31
  else if m = 4 then 30 else if m = 5 then 31 else if m = 6 then 30
  else if m = 7 then 31 else if m = 8 then 31 else if m = 9 then 30
  else if m = 10 then 31 else if m = 11 then 30 else 31

/-- Day number of the calendar date `y`-`m`-`d`. -/
def daysFromCivil (y m d : Int) : Int :=
  D y + monthOffset (isLeap y) m + (d - 1)

/-- Year of a day number: an approximate year from linear scaling, corrected
by comparing with `D`. -/
def toYear (z : Int) : Int :=
  if z < D (400 * z / 146097) then 400 * z / 146097 - 1
  else if z < D (400 * z / 146097 + 1) then 400 * z / 146097
  else 400 * z / 146097 + 1

/-- Zero-based day of the year of a day number. -/
def dayOfYear (z : Int) : Int := z - D (toYear z)

/-- Walk a list of month lengths, consuming the day-of-year and counting
months; falling off the end yields the last month. -/
def monthFromDoyGo : List Int → Int → Int → Int
  | [], _, m => m
  | len :: rest, x, m => if x < len then m else monthFromDoyGo rest (x - len) (m + 1)

/-- Month containing a given zero-based day of the year: walk the lengths of
January through November; any remainder is December. -/
def monthFromDoy (leap : Bool) (x : Int) : Int :=
  monthFromDoyGo [31, 28 + leapAdj leap, 31, 30, 31, 30, 31, 31, 30, 31, 30] x 1

/-- Month (1-12) of a day number. -/
def toMonth (z : Int) : Int := monthFromDoy (isLeap (toYear z)) (dayOfYear z)

/-- Day of month of a day number. -/
def toDay (z : Int) : Int :=
  dayOfYear z - monthOffset (isLeap (toYear z)) (toMonth z) + 1

/-- Weekday index with Monday = 0 (chrono `num_days_from_monday`);
day 719528 = 1970-01-01 is a Thursday. -/
def numDaysFromMonday (z : Int) : Int := (z + 5) % 7

/-- Weekday index with Sunday = 0 (chrono `num_days_from_sunday`). -/
def numDaysFromSunday (z : Int) : Int := (z + 6) % 7

/-- Saturday or Sunday test (chrono `weekday() == Sat || weekday() == Sun`). -/
def isSatOrSun (z : Int) : Bool :=
  decide (numDaysFromMonday z = 5 ∨ numDaysFromMonday z = 6)

/-- Week start configuration (`models.rs`, `WeekStart`). -/
inductive WeekStart
  | Monday
  | Sunday
deriving DecidableEq

/-- Weekend display configuration (`models.rs`, `WeekendDisplay`). -/
inductive WeekendDisplay
  | Dimmed
  | Normal
deriving DecidableEq

/-- Color mode configuration (`models.rs`, `ColorMode`). -/
inductive ColorMode
  | Normal
  | Work
deriving DecidableEq

/-- Past-date display configuration (`models.rs`, `PastDateDisplay`). -/
inductive PastDateDisplay
  | Strikethrough
  | Normal
deriving DecidableEq

/-- Month filter (`models.rs`, `MonthFilter`).  The `u32` payloads are
embedded as `Int`; the CLI layer only constructs `Single m` with
`1 ≤ m ≤ 12` and `CurrentWithFollowing n` with `n ≤ 11` (main.rs), so the
arithmetic below never overflows `u32`. -/
inductive MonthFilter
  | All
  | Single (m : Int)
  | Current
  | CurrentWithFollowing (n : Int)
deriving DecidableEq

/-- Point-detail payload (`models.rs`, `DateDetail`). -/
structure DateDetail where
  description : String
  color : Option String
deriving DecidableEq

/-- Range payload (`models.rs`, `DateRange`); the source field `end` is a
Lean keyword and is embedded as `endDate`. -/
structure DateRange where
  start : Int
  endDate : Int
  color : String
  description : Option String
deriving DecidableEq

/-- Calendar aggregate (`models.rs`, `Calendar`).  The `details` HashMap is
embedded as its lookup function (`HashMap::get`). -/
structure Calendar where
  year : Int
  week_start : WeekStart
  weekend_display : WeekendDisplay
  color_mode : ColorMode
  past_date_display : PastDateDisplay
  month_filter : MonthFilter
  details : Int → Option DateDetail
  ranges : List DateRange

/-- Weekday index of a date under the configured week start
(`models.rs`, `Calendar::get_weekday_num`). -/
def Calendar.get_weekday_num (cal : Calendar) (date : Int) : Int :=
  match cal.week_start with
  | WeekStart.Monday => numDaysFromMonday date
  | WeekStart.Sunday => numDaysFromSunday date

/-- Month range of a filter for a given year (`models.rs`,
`MonthFilter::get_month_range`).  The source reads `chrono::Local::now()`
for the `Current` variants; that external clock read is passed in as the
explicit `today` day number. -/
def MonthFilter.get_month_range : MonthFilter → Int → Int → Int × Int
  | MonthFilter.All, _, _ => (1, 12)
  | MonthFilter.Single m, _, _ => (m, m)
  | MonthFilter.Current, today, year =>
      if year = toYear today then (toMonth today, toMonth today)
      else (toMonth today, toMonth today)
  | MonthFilter.CurrentWithFollowing n, today, year =>
      let start_month := if year = toYear today then toMonth today else toMonth today
      let end_month := min (start_month + n) 12
      (start_month, end_month)

/-- Closed-interval membership test (`models.rs`,
`MonthFilter::should_display_month`). -/
def MonthFilter.should_display_month (f : MonthFilter) (today month year : Int) : Bool :=
  let r := f.get_month_range today year
  decide (r.1 ≤ month ∧ month ≤ r.2)

/-- Modelled from the spec: `MonthFilter::get_date_range` is called from
`rendering.rs` but its definition is not under src/.  Per the spec
(§4.2, date-range form) it yields the first day of the start month through
the last day of the end month of the resolved month range. -/
def MonthFilter.get_date_range (f : MonthFilter) (today year : Int) : Int × Int :=
  let r := f.get_month_range today year
  (daysFromCivil year r.1 1, daysFromCivil year r.2 (daysInMonth (isLeap year) r.2))

/-- One backward step of the alignment loop, bounded by fuel; the source
loop `while get_weekday_num(aligned) != 0 { aligned = pred(aligned) }`
executes at most 6 iterations since the weekday index is in `[0, 7)` and
decreases by one per step. -/
def alignGo (cal : Calendar) : Nat → Int → Int
  | 0, date => date
  | fuel + 1, date =>
      if cal.get_weekday_num date = 0 then date else alignGo cal fuel (date - 1)

/-- Align a date backward to the configured week start
(`rendering.rs`, `CalendarRenderer::align_to_week_start`). -/
def align_to_week_start (cal : Calendar) (date : Int) : Int :=
  alignGo cal 7 date

/-- Scan of the range list in stored order, returning the color of the
first range whose inclusive `[start, end]` contains the date
(the `for range in &self.calendar.ranges` loop in `get_date_color`). -/
def ranges_first_color : List DateRange → Int → Option String
  | [], _ => none
  | r :: rest, date =>
      if r.start ≤ date ∧ date ≤ r.endDate then some r.color
      else ranges_first_color rest date

/-- Color resolution for a date (`rendering.rs`,
`CalendarRenderer::get_date_color`). -/
def get_date_color (cal : Calendar) (date : Int) : Option String :=
  if cal.color_mode = ColorMode.Work ∧ isSatOrSun date = true then none
  else
    match cal.details date with
    | some detail =>
        match detail.color with
        | some color => some color
        | none => ranges_first_color cal.ranges date
    | none => ranges_first_color cal.ranges date

/-- Color resolution as worded by the spec (§4.3): work-mode weekend
suppression, then point-detail color, then the first containing range in
stored order via `List.find?`, else none. -/
def resolveSpec (cal : Calendar) (date : Int) : Option String :=
  if cal.color_mode = ColorMode.Work ∧ isSatOrSun date = true then none
  else
    match (cal.details date).bind (fun detail => detail.color) with
    | some color => some color
    | none =>
        (cal.ranges.find? (fun r => decide (r.start ≤ date ∧ date ≤ r.endDate))).map
          (fun r => r.color)

/-- Modelled from the spec: `WeekLayout` lives in the `formatting` module,
which is not under src/.  Per the spec (§3, §4.1) it holds the 7
consecutive dates from a week-aligned anchor and the first month-start
marker: index 0 is a marker when its date is the first day of its month,
index `i > 0` when its month or year differs from index `i-1`'s. -/
structure WeekLayout where
  dates : List Int
  month_start_idx : Option (Nat × Int)
deriving DecidableEq

/-- Modelled from the spec: scan for the first index whose month or year
differs from its predecessor, carrying the previous date. -/
def monthStartScan : Int → List Int → Nat → Option (Nat × Int)
  | _, [], _ => none
  | prev, d :: rest, i =>
      if toMonth d ≠ toMonth prev ∨ toYear d ≠ toYear prev then some (i, toMonth d)
      else monthStartScan d rest (i + 1)

/-- Modelled from the spec: build the `WeekLayout` of the week anchored at
`start` (assumed week-aligned by the caller, as in the source). -/
def WeekLayout.new (start : Int) : WeekLayout :=
  { dates := [start, start + 1, start + 2, start + 3, start + 4, start + 5, start + 6]
    month_start_idx :=
      if toDay start = 1 then some (0, toMonth start)
      else monthStartScan start
        [start + 1, start + 2, start + 3, start + 4, start + 5, start + 6] 1 }

/-- Week skip test (`rendering.rs`, `CalendarRenderer::should_render_week`):
a week is kept when any of its 7 dates lies in the rendered year and in a
month accepted by the filter. -/
def should_render_week (cal : Calendar) (today : Int) (layout : WeekLayout) : Bool :=
  layout.dates.any (fun date =>
    if toYear date ≠ cal.year then false
    else cal.month_filter.should_display_month today (toMonth date) cal.year)

/-- One emitted annotation: either a point detail (date plus payload,
formatted as "MM/DD - description") or a range by its index in the stored
range list (formatted as "MM/DD to MM/DD[ - description]"). -/
inductive Entry
  | detail (date : Int) (det : DateDetail)
  | range (idx : Nat)
deriving DecidableEq

/-- Queueing of the week's details (`rendering.rs`,
`CalendarRenderer::collect_details`): push each date of the layout that has
a detail and is not already queued. -/
def collect_details (cal : Calendar) (layout : WeekLayout)
    (details_queue : List (Int × DateDetail)) : List (Int × DateDetail) :=
  layout.dates.foldl (fun q date =>
    match cal.details date with
    | some detail => if q.any (fun p => p.1 = date) then q else q ++ [(date, detail)]
    | none => q) details_queue

/-- The range half of `annotations_to_string`: scan the stored ranges with
their indices; an index not yet shown whose `[start, end]` meets
`[week_start, week_end]` is emitted and marked shown. -/
def range_scan (week_start week_end : Int) :
    Nat → List DateRange → List Nat → List Entry × List Nat
  | _, [], shown_ranges => ([], shown_ranges)
  | idx, r :: rest, shown_ranges =>
      if ¬ shown_ranges.contains idx ∧ r.start ≤ week_end ∧ week_start ≤ r.endDate then
        (Entry.range idx ::
          (range_scan week_start week_end (idx + 1) rest (shown_ranges ++ [idx])).1,
         (range_scan week_start week_end (idx + 1) rest (shown_ranges ++ [idx])).2)
      else range_scan week_start week_end (idx + 1) rest shown_ranges

/-- Annotation collection for one week (`rendering.rs`,
`CalendarRenderer::annotations_to_string`): drain every queued detail whose
date falls in `[week_start, week_end]` (the source collects matching
indices and then removes them, i.e. a partition of the queue), then scan
the ranges; the emitted entries keep one annotation each. -/
def annotations_collect (cal : Calendar) (layout : WeekLayout)
    (details_queue : List (Int × DateDetail)) (shown_ranges : List Nat) :
    List Entry × List (Int × DateDetail) × List Nat :=
  let week_start := layout.dates.getD 0 0
  let week_end := layout.dates.getD 6 0
  let drained := details_queue.filter (fun p => week_start ≤ p.1 ∧ p.1 ≤ week_end)
  let queue2 := details_queue.filter (fun p => ¬ (week_start ≤ p.1 ∧ p.1 ≤ week_end))
  let rng := range_scan week_start week_end 0 cal.ranges shown_ranges
  (drained.map (fun p => Entry.detail p.1 p.2) ++ rng.1, queue2, rng.2)

/-- First mid-week month boundary of a layout (the
`month_boundary_idx` loop of the closing-border branch in
`weeks_to_string`): the first index `> 0` whose month or year differs from
its predecessor's. -/
def month_boundary_idx (layout : WeekLayout) : Option Nat :=
  (monthStartScan (layout.dates.getD 0 0) (layout.dates.drop 1) 1).map (fun p => p.1)

/-- Trailing border decision after an emitted week row (`weeks_to_string`,
the `is_last_week` / separator / separator-before-month chain). -/
inductive Trailing
  | closing (bidx : Option Nat)
  | separator
  | sepBeforeMonth
  | nothing
deriving DecidableEq

/-- One emitted week of the walk: the label counter, the week's first date,
the month label of a month-start marker, whether the month-opening border
was emitted above the row, the annotation entries after the row, and the
trailing border decision. -/
structure WeekRec where
  week_num : Int
  start : Int
  month_label : Option Int
  opening_border : Bool
  entries : List Entry
  trailing : Trailing
deriving DecidableEq

/-- Trailing border decision of one emitted week (`weeks_to_string`): a
closing border when the next week start leaves the year or the filtered
range, else a mid-table separator when this week starts a month at an
index > 0, else a pre-month separator when the next week starts a month
within the filtered range and year. -/
def week_trailing (cal : Calendar) (endD current_date : Int) : Trailing :=
  let layout := WeekLayout.new current_date
  let next_week_date := current_date + 7
  let next_layout := WeekLayout.new next_week_date
  if cal.year < toYear next_week_date ∨ endD < next_week_date then
    Trailing.closing (month_boundary_idx layout)
  else
    match layout.month_start_idx with
    | some p => if 0 < p.1 then Trailing.separator else Trailing.nothing
    | none =>
        if next_layout.month_start_idx.isSome ∧ next_week_date ≤ endD ∧
            toYear next_week_date = cal.year then
          Trailing.sepBeforeMonth
        else Trailing.nothing

/-- The record emitted for one retained week of `weeks_to_string`. -/
def week_rec (cal : Calendar) (endD current_date week_num : Int)
    (details_queue : List (Int × DateDetail)) (shown_ranges : List Nat)
    (is_first_month : Bool) : WeekRec :=
  let layout := WeekLayout.new current_date
  let ann := annotations_collect cal layout
    (collect_details cal layout details_queue) shown_ranges
  { week_num := week_num
    start := layout.dates.getD 0 0
    month_label := layout.month_start_idx.map (fun p => p.2)
    opening_border := layout.month_start_idx.isSome && is_first_month
    entries := ann.1
    trailing := week_trailing cal endD current_date }

/-- The loop state after one retained week of `weeks_to_string`: the
updated current month, the drained detail queue, the grown shown-range set
and the cleared first-month flag. -/
def week_new_state (cal : Calendar) (current_date : Int) (current_month : Option Int)
    (details_queue : List (Int × DateDetail)) (shown_ranges : List Nat)
    (is_first_month : Bool) :
    Option Int × List (Int × DateDetail) × List Nat × Bool :=
  let layout := WeekLayout.new current_date
  let ann := annotations_collect cal layout
    (collect_details cal layout details_queue) shown_ranges
  (match layout.month_start_idx with
   | some p => some p.2
   | none => current_month,
   ann.2.1, ann.2.2, is_first_month && !layout.month_start_idx.isSome)

/-- The week-by-week walk of `weeks_to_string` (`rendering.rs`), emitting
one `WeekRec` per retained week.  The source `while current_date <=
end_date` loop advances by 7 days per iteration; `fuel` bounds the
iteration count and the wrapper `weeks_render` supplies a sufficient
amount.  A week failing `should_render_week` is skipped: nothing is emitted
and no state changes.  After an emitted week the walk stops when the next
week start crosses into the following year (the `break`). -/
def weeks_walk (cal : Calendar) (today endD : Int) :
    Nat → Int → Int → Option Int → List (Int × DateDetail) → List Nat → Bool →
    List WeekRec
  | 0, _, _, _, _, _, _ => []
  | fuel + 1, current_date, week_num, current_month, details_queue, shown_ranges,
      is_first_month =>
    if endD < current_date then []
    else if ¬ should_render_week cal today (WeekLayout.new current_date) then
      weeks_walk cal today endD fuel (current_date + 7) week_num current_month
        details_queue shown_ranges is_first_month
    else
      let st := week_new_state cal current_date current_month details_queue
        shown_ranges is_first_month
      week_rec cal endD current_date week_num details_queue shown_ranges
        is_first_month ::
      (if cal.year < toYear (current_date + 7) then []
       else weeks_walk cal today endD fuel (current_date + 7) (week_num + 1) st.1
         st.2.1 st.2.2.1 st.2.2.2)

/-- Top of `weeks_to_string`: resolve the filtered date range, align its
start to the week start, and walk with the session state initialized
(week counter 1, empty queue, no shown ranges). -/
def weeks_render (cal : Calendar) (today : Int) : List WeekRec :=
  weeks_walk cal today (cal.month_filter.get_date_range today cal.year).2
    (((cal.month_filter.get_date_range today cal.year).2 + 1 -
        align_to_week_start cal (cal.month_filter.get_date_range today cal.year).1).toNat
      + 1)
    (align_to_week_start cal (cal.month_filter.get_date_range today cal.year).1)
    1 none [] [] true

/-- Example calendar for the skip-test witness: `--month 2`, year 2024. -/
def calFeb : Calendar :=
  { year := 2024
    week_start := WeekStart.Monday
    weekend_display := WeekendDisplay.Dimmed
    color_mode := ColorMode.Normal
    past_date_display := PastDateDisplay.Strikethrough
    month_filter := MonthFilter.Single 2
    details := fun _ => none
    ranges := [] }

/-- Test for the annotation entry of the point detail at date `d`. -/
def isDetailEntryFor (d : Int) : Entry → Bool
  | Entry.detail d2 _ => d2 == d
  | Entry.range _ => false

/-- Test for the annotation entry of the stored range with index `j`. -/
def isRangeEntryFor (j : Nat) : Entry → Bool
  | Entry.range j2 => j2 == j
  | Entry.detail _ _ => false

/-- Number of annotation entries for the detail at `d` across a walk. -/
def det_total (recs : List WeekRec) (d : Int) : Nat :=
  (recs.map (fun r => r.entries.countP (isDetailEntryFor d))).sum

/-- Number of annotation entries for range index `j` across a walk. -/
def range_total (recs : List WeekRec) (j : Nat) : Nat :=
  (recs.map (fun r => r.entries.countP (isRangeEntryFor j))).sum

/-- Month-opening border line (`rendering.rs`,
`CalendarRenderer::month_border_to_string`): emitted only for a month-start
marker at index > 0; "│" plus a 13-character gutter, "┌", `(idx-1)*5+4`
dashes, "┬", `(7-idx)*5-1` dashes, "┤" and a newline. -/
def month_border_chars (layout : WeekLayout) : List Char :=
  match layout.month_start_idx with
  | some p =>
      if 0 < p.1 then
        '│' :: (List.replicate 13 ' ' ++ ['┌'] ++ List.replicate ((p.1 - 1) * 5 + 4) '─'
          ++ ['┬'] ++ List.replicate ((7 - p.1) * 5 - 1) '─' ++ ['┤', '\n'])
      else []
  | none => []

/-- The `first_bar_idx` scan of `separator_to_string`: for each index, the
date is in-month when its year is the rendered year and its month is the
current month; an in-month index whose predecessor is not in-month
overwrites the accumulator (the source loop does not break, so the last
such index wins). -/
def first_bar_scan (year : Int) (current_month : Option Int) :
    List Int → Nat → Bool → Option Nat → Option Nat
  | [], _, _, acc => acc
  | d :: rest, i, prev_in, acc =>
      let in_m := decide (toYear d = year ∧ some (toMonth d) = current_month)
      first_bar_scan year current_month rest (i + 1) in_m
        (if in_m && !prev_in then some i else acc)

/-- Mid-table separator line (`rendering.rs`,
`CalendarRenderer::separator_to_string`): "│" plus the gutter, "├", then
for a bar index > 0 `(idx-1)*5+4` dashes, "┘", `(7-idx)*5-1` spaces, "│"
and a newline; otherwise the fixed 31-dash fallback line. -/
def separator_chars (cal : Calendar) (layout : WeekLayout)
    (current_month : Option Int) : List Char :=
  '│' :: (List.replicate 13 ' ' ++ ['├'] ++
    (match first_bar_scan cal.year current_month layout.dates 0 false none with
     | some bidx =>
        if 0 < bidx then
          List.replicate ((bidx - 1) * 5 + 4) '─' ++ ['┘']
            ++ List.replicate ((7 - bidx) * 5 - 1) ' ' ++ ['│', '\n']
        else List.replicate 31 '─' ++ ['┤', '│', '\n']
     | none => List.replicate 31 '─' ++ ['┤', '│', '\n']))

/-- Pre-month separator line (`rendering.rs`,
`CalendarRenderer::separator_before_month_to_string`); only the next week's
layout is read.  For a next-week month start at index > 0: "│" plus the
gutter, "│", `(idx-1)*5+4` spaces, "┌", `(7-1-idx)*5+4` dashes, "┤" and a
newline. -/
def separator_before_month_chars (next_layout : WeekLayout) : List Char :=
  match next_layout.month_start_idx with
  | some p =>
      if p.1 = 0 then
        '│' :: (List.replicate 13 ' ' ++ ['├'] ++ List.replicate 34 '─' ++ ['┤', '\n'])
      else
        '│' :: (List.replicate 13 ' ' ++ ['│'] ++ List.replicate ((p.1 - 1) * 5 + 4) ' '
          ++ ['┌'] ++ List.replicate ((7 - 1 - p.1) * 5 + 4) '─' ++ ['┤', '\n'])
  | none => '│' :: (List.replicate 13 ' ' ++ ['│'] ++ List.replicate (7 * 4 + 3) ' '
      ++ ['\n'])

/-- Styling decisions for one day cell of `print_week_row`. -/
structure CellStyle where
  is_past : Bool
  is_today : Bool
  is_weekend : Bool
  color : Option String
deriving DecidableEq

/-- The per-cell styling of `print_week_row` (`rendering.rs`, lines
711-804).  The source evaluates `chrono::Local::now().date_naive()` inside
the loop body, once per day cell; the external clock is modelled as the
stream `clock`, whose `idx`-th value is the date returned by the read made
for cell `idx`. -/
def print_week_row_cell_styles (cal : Calendar) (layout : WeekLayout)
    (clock : Nat → Int) : List CellStyle :=
  layout.dates.enum.map (fun p =>
    let today := clock p.1
    { is_past := decide (cal.past_date_display = PastDateDisplay.Strikethrough ∧
        p.2 < today)
      is_today := decide (p.2 = today)
      is_weekend := decide (cal.weekend_display = WeekendDisplay.Dimmed) &&
        isSatOrSun p.2
      color := get_date_color cal p.2 })

/-- The NO_COLOR environment interactions of `render_to_string`
(`rendering.rs`, lines 196-212), as a transformer of the variable's state:
save the previous value, set "1", render (the string path reads no
environment), then restore the saved value or remove the variable. -/
def render_to_string_env (env : Option String) : Option String :=
  let prev_no_color := env
  let _env_during_render : Option String := some "1"
  match prev_no_color with
  | some val => some val
  | none => none

/-- Outcome 1 of the spec's precedence: work-mode weekend suppression. -/
def workOutcome (cal : Calendar) (date : Int) : Prop :=
  cal.color_mode = ColorMode.Work ∧ isSatOrSun date = true

/-- The explicit color of the date's point detail, when both exist. -/
def detailColorOf (cal : Calendar) (date : Int) : Option String :=
  (cal.details date).bind (fun det => det.color)

/-- The first range in stored insertion order containing the date. -/
def firstRangeOf (cal : Calendar) (date : Int) : Option DateRange :=
  cal.ranges.find? (fun r => decide (r.start ≤ date ∧ date ≤ r.endDate))

/-- Example calendar for the work-mode witness: work color mode, one
detail and one range covering the witness date. -/
def calWork : Calendar :=
  { year := 2024
    week_start := WeekStart.Monday
    weekend_display := WeekendDisplay.Dimmed
    color_mode := ColorMode.Work
    past_date_display := PastDateDisplay.Strikethrough
    month_filter := MonthFilter.All
    details := fun d =>
      if d = daysFromCivil 2024 7 6 then some ⟨"party", some "red"⟩ else none
    ranges := [⟨daysFromCivil 2024 7 1, daysFromCivil 2024 7 31, "blue", none⟩] }

/-- Example calendar for the clock-read analysis: plain configuration,
no annotations. -/
def calClock : Calendar :=
  { year := 2024
    week_start := WeekStart.Monday
    weekend_display := WeekendDisplay.Dimmed
    color_mode := ColorMode.Normal
    past_date_display := PastDateDisplay.Strikethrough
    month_filter := MonthFilter.All
    details := fun _ => none
    ranges := [] }

/-- A clock whose date advances after the first cell's read (a render pass
crossing midnight): cell 0 reads 2024-07-01, later cells read 2024-07-02. -/
def clockDrift (i : Nat) : Int :=
  if i = 0 then daysFromCivil 2024 7 1 else daysFromCivil 2024 7 2

/-- A clock frozen at the first read of `clockDrift`. -/
def clockConst (_ : Nat) : Int := daysFromCivil 2024 7 1

/-- Example calendar for the annotation witness: full year 2024, one
point detail (2024-07-04) and one range (2024-12-24 to 2024-12-26). -/
def calAll : Calendar :=
  { year := 2024
    week_start := WeekStart.Monday
    weekend_display := WeekendDisplay.Dimmed
    color_mode := ColorMode.Normal
    past_date_display := PastDateDisplay.Strikethrough
    month_filter := MonthFilter.All
    details := fun dd =>
      if dd = daysFromCivil 2024 7 4 then some ⟨"Holiday", none⟩ else none
    ranges := [⟨daysFromCivil 2024 12 24, daysFromCivil 2024 12 26, "red",
      some "Break"⟩] }

/-- Week containing 2024-02-01 (a Thursday): its month-start marker sits at
index 3 under a Monday week start. -/
def febLayout : WeekLayout := WeekLayout.new (daysFromCivil 2024 1 29)

/-! ## Theorems -/

theorem D_bound (y : Int) :
    146097 * y - 396 ≤ 400 * D y ∧ 400 * D y ≤ 146097 * y + 699 := by
  unfold D
  omega

theorem D_step_bounds (y : Int) : D y + 365 ≤ D (y + 1) ∧ D (y + 1) ≤ D y + 366 := by
  unfold D
  omega

theorem D_step_leap (y : Int) : D (y + 1) = D y + 365 + leapAdj (isLeap y) := by
  unfold D isLeap leapAdj
  simp only [decide_eq_true_eq]
  split <;> omega

theorem D_mono {a b : Int} (h : a ≤ b) : D a ≤ D b := by
  have key : ∀ n : Nat, D a ≤ D (a + n) := by
    intro n
    induction n with
    | zero => simp
    | succ k ih =>
      have hs := D_step_bounds (a + k)
      have he : (a + ((k + 1 : Nat) : Int)) = (a + k) + 1 := by push_cast; ring
      rw [he]
      omega
  have h2 := key (b - a).toNat
  rwa [show a + (((b - a).toNat : Nat) : Int) = b by omega] at h2

theorem toYear_spec (z : Int) : D (toYear z) ≤ z ∧ z < D (toYear z + 1) := by
  have b0 := D_bound (400 * z / 146097 - 1)
  have b1 := D_bound (400 * z / 146097)
  have b2 := D_bound (400 * z / 146097 + 1)
  have b3 := D_bound (400 * z / 146097 + 2)
  unfold toYear
  split_ifs with h1 h2
  · rw [show 400 * z / 146097 - 1 + 1 = 400 * z / 146097 by ring]
    exact ⟨by omega, h1⟩
  · exact ⟨by omega, h2⟩
  · rw [show 400 * z / 146097 + 1 + 1 = 400 * z / 146097 + 2 by ring]
    exact ⟨by omega, by omega⟩

theorem toYear_eq {y z : Int} (h1 : D y ≤ z) (h2 : z < D (y + 1)) : toYear z = y := by
  have hs := toYear_spec z
  by_contra hne
  rcases lt_or_gt_of_ne hne with hlt | hgt
  · have hle : toYear z + 1 ≤ y := by omega
    have := D_mono hle
    omega
  · have hle : y + 1 ≤ toYear z := by omega
    have := D_mono hle
    omega

theorem monthOffset_one (leap : Bool) : monthOffset leap 1 = 0 := by
  unfold monthOffset
  norm_num

theorem monthOffset_twelve (leap : Bool) : monthOffset leap 12 = 334 + leapAdj leap := by
  unfold monthOffset
  norm_num

theorem daysFromCivil_jan1 (y : Int) : daysFromCivil y 1 1 = D y := by
  unfold daysFromCivil
  rw [monthOffset_one]
  ring

theorem daysFromCivil_dec31 (y : Int) : daysFromCivil y 12 31 = D (y + 1) - 1 := by
  unfold daysFromCivil
  rw [monthOffset_twelve, D_step_leap]
  ring

theorem jan1_le_dec31 (y : Int) : daysFromCivil y 1 1 ≤ daysFromCivil y 12 31 := by
  rw [daysFromCivil_jan1, daysFromCivil_dec31]
  have := D_step_bounds y
  omega

theorem toYear_of_in_year {y z : Int} (h1 : daysFromCivil y 1 1 ≤ z)
    (h2 : z ≤ daysFromCivil y 12 31) : toYear z = y := by
  rw [daysFromCivil_jan1] at h1
  rw [daysFromCivil_dec31] at h2
  exact toYear_eq h1 (by omega)

theorem toYear_le_of_le_dec31 {y z : Int} (h : z ≤ daysFromCivil y 12 31) :
    toYear z ≤ y := by
  rw [daysFromCivil_dec31] at h
  have hs := toYear_spec z
  by_contra hgt
  have hle : y + 1 ≤ toYear z := by omega
  have := D_mono hle
  omega

theorem monthFromDoyGo_bounds (ls : List Int) (x m : Int) :
    m ≤ monthFromDoyGo ls x m ∧ monthFromDoyGo ls x m ≤ m + ls.length := by
  induction ls generalizing x m with
  | nil => simp [monthFromDoyGo]
  | cons len rest ih =>
    rw [monthFromDoyGo]
    split
    · refine ⟨le_refl m, ?_⟩
      have : (0 : Int) ≤ ((len :: rest).length : Int) := by positivity
      omega
    · have := ih (x - len) (m + 1)
      simp only [List.length_cons]
      push_cast
      push_cast at this
      omega

theorem monthFromDoy_bounds (leap : Bool) (x : Int) :
    1 ≤ monthFromDoy leap x ∧ monthFromDoy leap x ≤ 12 := by
  have := monthFromDoyGo_bounds [31, 28 + leapAdj leap, 31, 30, 31, 30, 31, 31, 30, 31, 30] x 1
  simpa [monthFromDoy] using this

theorem toMonth_bounds (z : Int) : 1 ≤ toMonth z ∧ toMonth z ≤ 12 :=
  monthFromDoy_bounds _ _

theorem get_weekday_num_bounds (cal : Calendar) (date : Int) :
    0 ≤ cal.get_weekday_num date ∧ cal.get_weekday_num date < 7 := by
  cases hws : cal.week_start <;>
    simp only [Calendar.get_weekday_num, hws, numDaysFromMonday, numDaysFromSunday] <;>
    omega

theorem get_weekday_num_pred (cal : Calendar) (date : Int)
    (h : cal.get_weekday_num date ≠ 0) :
    cal.get_weekday_num (date - 1) = cal.get_weekday_num date - 1 := by
  cases hws : cal.week_start <;>
    simp only [Calendar.get_weekday_num, hws, numDaysFromMonday, numDaysFromSunday] at h ⊢ <;>
    omega

theorem alignGo_eq (cal : Calendar) (fuel : Nat) (date : Int)
    (h : (cal.get_weekday_num date).toNat ≤ fuel) :
    alignGo cal fuel date = date - cal.get_weekday_num date := by
  induction fuel generalizing date with
  | zero =>
    have hb := get_weekday_num_bounds cal date
    have h0 : cal.get_weekday_num date = 0 := by omega
    simp [alignGo, h0]
  | succ k ih =>
    rw [alignGo]
    split
    · simp_all
    · have hb := get_weekday_num_bounds cal date
      have hp := get_weekday_num_pred cal date (by assumption)
      rw [ih (date - 1) (by omega), hp]
      ring

theorem align_eq (cal : Calendar) (date : Int) :
    align_to_week_start cal date = date - cal.get_weekday_num date := by
  have hb := get_weekday_num_bounds cal date
  exact alignGo_eq cal 7 date (by omega)

theorem align_weekday_zero (cal : Calendar) (date : Int) :
    cal.get_weekday_num (align_to_week_start cal date) = 0 := by
  rw [align_eq]
  cases hws : cal.week_start <;>
    simp only [Calendar.get_weekday_num, hws, numDaysFromMonday, numDaysFromSunday] <;>
    omega

theorem align_bounds (cal : Calendar) (date : Int) :
    date - 6 ≤ align_to_week_start cal date ∧ align_to_week_start cal date ≤ date := by
  rw [align_eq]
  have hb := get_weekday_num_bounds cal date
  omega

theorem weeks_walk_stop (cal : Calendar) (today endD : Int) (fuel : Nat)
    (s wn : Int) (cm : Option Int) (q : List (Int × DateDetail)) (sh : List Nat)
    (fir : Bool) (h : endD < s) :
    weeks_walk cal today endD (fuel + 1) s wn cm q sh fir = [] := by
  rw [weeks_walk, if_pos h]

theorem weeks_walk_skip (cal : Calendar) (today endD : Int) (fuel : Nat)
    (s wn : Int) (cm : Option Int) (q : List (Int × DateDetail)) (sh : List Nat)
    (fir : Bool) (h1 : ¬ endD < s)
    (h2 : should_render_week cal today (WeekLayout.new s) = false) :
    weeks_walk cal today endD (fuel + 1) s wn cm q sh fir =
      weeks_walk cal today endD fuel (s + 7) wn cm q sh fir := by
  rw [weeks_walk, if_neg h1, if_pos (by simp [h2])]

theorem weeks_walk_emit (cal : Calendar) (today endD : Int) (fuel : Nat)
    (s wn : Int) (cm : Option Int) (q : List (Int × DateDetail)) (sh : List Nat)
    (fir : Bool) (h1 : ¬ endD < s)
    (h2 : should_render_week cal today (WeekLayout.new s) = true) :
    weeks_walk cal today endD (fuel + 1) s wn cm q sh fir =
      week_rec cal endD s wn q sh fir ::
        (if cal.year < toYear (s + 7) then []
         else weeks_walk cal today endD fuel (s + 7) (wn + 1)
           (week_new_state cal s cm q sh fir).1
           (week_new_state cal s cm q sh fir).2.1
           (week_new_state cal s cm q sh fir).2.2.1
           (week_new_state cal s cm q sh fir).2.2.2) := by
  rw [weeks_walk, if_neg h1, if_neg (by simp [h2])]

theorem week_rec_start (cal : Calendar) (endD s wn : Int)
    (q : List (Int × DateDetail)) (sh : List Nat) (fir : Bool) :
    (week_rec cal endD s wn q sh fir).start = s := rfl

theorem week_rec_week_num (cal : Calendar) (endD s wn : Int)
    (q : List (Int × DateDetail)) (sh : List Nat) (fir : Bool) :
    (week_rec cal endD s wn q sh fir).week_num = wn := rfl

theorem weeks_walk_mem_rendered (cal : Calendar) (today endD : Int) :
    ∀ (fuel : Nat) (s wn : Int) (cm : Option Int) (q : List (Int × DateDetail))
      (sh : List Nat) (fir : Bool) (rec : WeekRec),
      rec ∈ weeks_walk cal today endD fuel s wn cm q sh fir →
      should_render_week cal today (WeekLayout.new rec.start) = true := by
  intro fuel
  induction fuel with
  | zero =>
    intro s wn cm q sh fir rec hmem
    simp [weeks_walk] at hmem
  | succ f ih =>
    intro s wn cm q sh fir rec hmem
    by_cases h1 : endD < s
    · rw [weeks_walk_stop cal today endD f s wn cm q sh fir h1] at hmem
      simp at hmem
    · by_cases h2 : should_render_week cal today (WeekLayout.new s) = true
      · rw [weeks_walk_emit cal today endD f s wn cm q sh fir h1 h2] at hmem
        rcases List.mem_cons.mp hmem with hhead | htail
        · rw [hhead, week_rec_start]
          exact h2
        · by_cases h3 : cal.year < toYear (s + 7)
          · rw [if_pos h3] at htail
            simp at htail
          · rw [if_neg h3] at htail
            exact ih _ _ _ _ _ _ _ htail
      · rw [weeks_walk_skip cal today endD f s wn cm q sh fir h1
          (Bool.eq_false_iff.mpr h2)] at hmem
        exact ih _ _ _ _ _ _ _ hmem

theorem weeks_walk_week_num_aux (cal : Calendar) (today endD : Int) :
    ∀ (fuel : Nat) (s wn : Int) (cm : Option Int) (q : List (Int × DateDetail))
      (sh : List Nat) (fir : Bool) (i : Nat) (rec : WeekRec),
      (weeks_walk cal today endD fuel s wn cm q sh fir)[i]? = some rec →
      rec.week_num = wn + i := by
  intro fuel
  induction fuel with
  | zero =>
    intro s wn cm q sh fir i rec hget
    simp [weeks_walk] at hget
  | succ f ih =>
    intro s wn cm q sh fir i rec hget
    by_cases h1 : endD < s
    · rw [weeks_walk_stop cal today endD f s wn cm q sh fir h1] at hget
      simp at hget
    · by_cases h2 : should_render_week cal today (WeekLayout.new s) = true
      · rw [weeks_walk_emit cal today endD f s wn cm q sh fir h1 h2] at hget
        cases i with
        | zero =>
          rw [List.getElem?_cons_zero] at hget
          cases hget
          simp [week_rec_week_num]
        | succ i2 =>
          rw [List.getElem?_cons_succ] at hget
          by_cases h3 : cal.year < toYear (s + 7)
          · rw [if_pos h3] at hget
            simp at hget
          · rw [if_neg h3] at hget
            have := ih (s + 7) (wn + 1) (week_new_state cal s cm q sh fir).1
              (week_new_state cal s cm q sh fir).2.1
              (week_new_state cal s cm q sh fir).2.2.1
              (week_new_state cal s cm q sh fir).2.2.2 i2 rec hget
            rw [this]
            push_cast
            ring
      · rw [weeks_walk_skip cal today endD f s wn cm q sh fir h1
          (Bool.eq_false_iff.mpr h2)] at hget
        exact ih _ _ _ _ _ _ _ _ hget

/-- C5: during the week walk a week is emitted iff one of its 7 dates lies
in the rendered year and in a month accepted by the filter
(`should_render_week`, whose test is exactly that, last conjunct); a week
failing the test is skipped entirely — the walk advances by 7 days with no
row, border, annotation or state change (first conjunct), while a week
passing it emits its row record (second conjunct), and every emitted
record's week passes the test (third conjunct). -/
theorem week_skip_iff (cal : Calendar) (today endD : Int) :
    (∀ (fuel : Nat) (s wn : Int) (cm : Option Int) (q : List (Int × DateDetail))
      (sh : List Nat) (fir : Bool), ¬ endD < s →
      should_render_week cal today (WeekLayout.new s) = false →
      weeks_walk cal today endD (fuel + 1) s wn cm q sh fir =
        weeks_walk cal today endD fuel (s + 7) wn cm q sh fir) ∧
    (∀ (fuel : Nat) (s wn : Int) (cm : Option Int) (q : List (Int × DateDetail))
      (sh : List Nat) (fir : Bool), ¬ endD < s →
      should_render_week cal today (WeekLayout.new s) = true →
      ∃ rest, weeks_walk cal today endD (fuel + 1) s wn cm q sh fir =
        week_rec cal endD s wn q sh fir :: rest ∧
        (week_rec cal endD s wn q sh fir).start = s ∧
        (week_rec cal endD s wn q sh fir).week_num = wn) ∧
    (∀ (fuel : Nat) (s wn : Int) (cm : Option Int) (q : List (Int × DateDetail))
      (sh : List Nat) (fir : Bool) (rec : WeekRec),
      rec ∈ weeks_walk cal today endD fuel s wn cm q sh fir →
      should_render_week cal today (WeekLayout.new rec.start) = true) ∧
    (∀ layout : WeekLayout, should_render_week cal today layout = true ↔
      ∃ date ∈ layout.dates, toYear date = cal.year ∧
        cal.month_filter.should_display_month today (toMonth date) cal.year = true) := by
  refine ⟨?_, ?_, weeks_walk_mem_rendered cal today endD, ?_⟩
  · intro fuel s wn cm q sh fir h1 h2
    exact weeks_walk_skip cal today endD fuel s wn cm q sh fir h1 h2
  · intro fuel s wn cm q sh fir h1 h2
    exact ⟨_, weeks_walk_emit cal today endD fuel s wn cm q sh fir h1 h2, rfl, rfl⟩
  · intro layout
    unfold should_render_week
    rw [List.any_eq_true]
    constructor
    · rintro ⟨date, hmem, hp⟩
      by_cases hy : toYear date = cal.year
      · refine ⟨date, hmem, hy, ?_⟩
        rw [if_neg (by simp [hy])] at hp
        exact hp
      · rw [if_pos (by simp [hy])] at hp
        simp at hp
    · rintro ⟨date, hmem, hy, hp⟩
      exact ⟨date, hmem, by rw [if_neg (by simp [hy])]; exact hp⟩

theorem week_skip_iff_witness :
    weeks_walk calFeb 0 (daysFromCivil 2024 2 29) 6 (daysFromCivil 2024 1 1)
        1 none [] [] true =
      weeks_walk calFeb 0 (daysFromCivil 2024 2 29) 5 (daysFromCivil 2024 1 1 + 7)
        1 none [] [] true :=
  (week_skip_iff calFeb 0 (daysFromCivil 2024 2 29)).1 5 (daysFromCivil 2024 1 1)
    1 none [] [] true (by decide) (by decide)

/-- C10: throughout one render pass the week counter starts at 1 and is
advanced only by emitted rows: the i-th emitted row of `weeks_render`
carries week number `i + 1`, so the first emitted row is always labeled
W01 and the counter equals the number of rows emitted so far in the pass,
for every month filter. -/
theorem week_counter_counts_emitted (cal : Calendar) (today : Int) (i : Nat)
    (h : i < (weeks_render cal today).length) :
    ((weeks_render cal today)[i]).week_num = i + 1 := by
  have hget : (weeks_render cal today)[i]? = some ((weeks_render cal today)[i]) :=
    List.getElem?_eq_getElem h
  unfold weeks_render at hget
  have h2 := weeks_walk_week_num_aux cal today _ _ _ _ _ _ _ _ i _ hget
  unfold weeks_render
  exact h2.trans (by ring)

theorem week_counter_counts_emitted_witness :
    ((weeks_render calFeb 0).get ⟨0, by decide⟩).week_num = 0 + 1 := by
  simpa [List.get_eq_getElem] using week_counter_counts_emitted calFeb 0 0 (by decide)

theorem get_date_range_all (cal : Calendar) (today : Int)
    (hAll : cal.month_filter = MonthFilter.All) :
    cal.month_filter.get_date_range today cal.year =
      (daysFromCivil cal.year 1 1, daysFromCivil cal.year 12 31) := by
  rw [hAll]
  have h12 : daysInMonth (isLeap cal.year) 12 = 31 := by
    unfold daysInMonth
    norm_num
  simp [MonthFilter.get_date_range, MonthFilter.get_month_range, h12]

theorem mem_week_dates {s d : Int} :
    d ∈ (WeekLayout.new s).dates ↔ s ≤ d ∧ d ≤ s + 6 := by
  simp only [WeekLayout.new, List.mem_cons, List.mem_singleton, List.not_mem_nil,
    or_false]
  omega

theorem week_dates_nodup (s : Int) : (WeekLayout.new s).dates.Nodup := by
  simp [WeekLayout.new, List.nodup_cons]

theorem should_render_all (cal : Calendar) (today s : Int)
    (hAll : cal.month_filter = MonthFilter.All)
    (h1 : daysFromCivil cal.year 1 1 - 6 ≤ s)
    (h2 : s ≤ daysFromCivil cal.year 12 31) :
    should_render_week cal today (WeekLayout.new s) = true := by
  have hjd := jan1_le_dec31 cal.year
  unfold should_render_week
  rw [List.any_eq_true]
  by_cases hs : daysFromCivil cal.year 1 1 ≤ s
  · refine ⟨s, mem_week_dates.mpr (by omega), ?_⟩
    have ht : toYear s = cal.year := toYear_of_in_year hs h2
    rw [if_neg (by simp [ht])]
    rw [hAll]
    unfold MonthFilter.should_display_month MonthFilter.get_month_range
    simp only [decide_eq_true_eq]
    exact toMonth_bounds s
  · refine ⟨daysFromCivil cal.year 1 1, mem_week_dates.mpr (by omega), ?_⟩
    have ht : toYear (daysFromCivil cal.year 1 1) = cal.year :=
      toYear_of_in_year (le_refl _) hjd
    rw [if_neg (by simp [ht])]
    rw [hAll]
    unfold MonthFilter.should_display_month MonthFilter.get_month_range
    simp only [decide_eq_true_eq]
    exact toMonth_bounds _

theorem collect_details_fold_mem (cal : Calendar) :
    ∀ (ds : List Int) (q : List (Int × DateDetail)) (p : Int × DateDetail),
      p ∈ ds.foldl (fun (q2 : List (Int × DateDetail)) (date : Int) =>
        match cal.details date with
        | some detail =>
            if q2.any (fun p2 => p2.1 = date) then q2 else q2 ++ [(date, detail)]
        | none => q2) q →
      p ∈ q ∨ p.1 ∈ ds := by
  intro ds
  induction ds with
  | nil =>
    intro q p hp
    rw [List.foldl_nil] at hp
    exact Or.inl hp
  | cons d rest ih =>
    intro q p hp
    rw [List.foldl_cons] at hp
    have step : ∀ q2 : List (Int × DateDetail),
        p ∈ q2 ∨ p.1 ∈ rest → p ∈ q2 ∨ p.1 ∈ d :: rest := by
      intro q2 h
      rcases h with h | h
      · exact Or.inl h
      · exact Or.inr (List.mem_cons_of_mem d h)
    cases hd : cal.details d with
    | none =>
      simp only [hd] at hp
      exact step q (ih q p hp)
    | some det =>
      simp only [hd] at hp
      split at hp
      · exact step q (ih q p hp)
      · rcases ih _ p hp with hq | hr
        · rcases List.mem_append.mp hq with hq2 | hq3
          · exact Or.inl hq2
          · simp only [List.mem_singleton] at hq3
            right
            rw [hq3]
            exact List.mem_cons_self d rest
        · exact Or.inr (List.mem_cons_of_mem d hr)

theorem collect_details_mem (cal : Calendar) (layout : WeekLayout)
    (q : List (Int × DateDetail)) (p : Int × DateDetail)
    (hp : p ∈ collect_details cal layout q) : p ∈ q ∨ p.1 ∈ layout.dates :=
  collect_details_fold_mem cal layout.dates q p hp

theorem collect_details_fold_fresh (cal : Calendar) :
    ∀ (ds : List Int) (q : List (Int × DateDetail)),
      (∀ d ∈ ds, ∀ p ∈ q, p.1 ≠ d) → ds.Nodup →
      ds.foldl (fun (q2 : List (Int × DateDetail)) (date : Int) =>
        match cal.details date with
        | some detail =>
            if q2.any (fun p2 => p2.1 = date) then q2 else q2 ++ [(date, detail)]
        | none => q2) q =
      q ++ ds.filterMap (fun date => (cal.details date).map (fun det => (date, det))) := by
  intro ds
  induction ds with
  | nil =>
    intro q hfresh hnodup
    simp
  | cons d rest ih =>
    intro q hfresh hnodup
    rw [List.foldl_cons, List.filterMap_cons]
    cases hd : cal.details d with
    | none =>
      simp only [hd, Option.map_none']
      rw [ih q (fun d2 hd2 p hp => hfresh d2 (List.mem_cons_of_mem d hd2) p hp)
        (List.nodup_cons.mp hnodup).2]
    | some det =>
      have hany : (q.any (fun p2 => decide (p2.1 = d))) = false := by
        rw [List.any_eq_false]
        intro p hp
        simp only [decide_eq_true_eq]
        exact hfresh d (List.mem_cons_self d rest) p hp
      simp only [hd, hany, Bool.false_eq_true, if_false, Option.map_some']
      rw [ih (q ++ [(d, det)]) ?_ (List.nodup_cons.mp hnodup).2]
      · rw [List.append_assoc]
        rfl
      · intro d2 hd2 p hp
        rcases List.mem_append.mp hp with hq | hsing
        · exact hfresh d2 (List.mem_cons_of_mem d hd2) p hq
        · simp only [List.mem_singleton] at hsing
          rw [hsing]
          intro he
          rw [show d2 = d from he.symm] at hd2
          exact (List.nodup_cons.mp hnodup).1 hd2

theorem collect_details_week (cal : Calendar) (s : Int) :
    collect_details cal (WeekLayout.new s) [] =
      (WeekLayout.new s).dates.filterMap
        (fun date => (cal.details date).map (fun det => (date, det))) := by
  unfold collect_details
  rw [collect_details_fold_fresh cal (WeekLayout.new s).dates []
    (by intro d hd p hp; simp at hp) (week_dates_nodup s)]
  simp

theorem contains_iff_mem (l : List Nat) (a : Nat) : l.contains a = true ↔ a ∈ l := by
  simp [List.contains]

theorem week_rec_entries (cal : Calendar) (endD s wn : Int)
    (q : List (Int × DateDetail)) (sh : List Nat) (fir : Bool) :
    (week_rec cal endD s wn q sh fir).entries =
      ((collect_details cal (WeekLayout.new s) q).filter
        (fun p => decide (s ≤ p.1 ∧ p.1 ≤ s + 6))).map
          (fun p => Entry.detail p.1 p.2) ++
      (range_scan s (s + 6) 0 cal.ranges sh).1 := rfl

theorem week_new_state_queue (cal : Calendar) (s : Int) (cm : Option Int)
    (q : List (Int × DateDetail)) (sh : List Nat) (fir : Bool) :
    (week_new_state cal s cm q sh fir).2.1 =
      (collect_details cal (WeekLayout.new s) q).filter
        (fun p => decide (¬ (s ≤ p.1 ∧ p.1 ≤ s + 6))) := rfl

theorem week_new_state_shown (cal : Calendar) (s : Int) (cm : Option Int)
    (q : List (Int × DateDetail)) (sh : List Nat) (fir : Bool) :
    (week_new_state cal s cm q sh fir).2.2.1 =
      (range_scan s (s + 6) 0 cal.ranges sh).2 := rfl

theorem countP_det_of_map_det (d : Int) (l : List (Int × DateDetail)) :
    (l.map (fun p => Entry.detail p.1 p.2)).countP (isDetailEntryFor d) =
      l.countP (fun p => decide (p.1 = d)) := by
  induction l with
  | nil => rfl
  | cons p rest ih =>
    rw [List.map_cons, List.countP_cons, List.countP_cons, ih]
    simp [isDetailEntryFor]

theorem countP_range_of_map_det (j : Nat) (l : List (Int × DateDetail)) :
    (l.map (fun p => Entry.detail p.1 p.2)).countP (isRangeEntryFor j) = 0 := by
  induction l with
  | nil => rfl
  | cons p rest ih =>
    rw [List.map_cons, List.countP_cons, ih]
    simp [isRangeEntryFor]

theorem countP_det_of_range_scan (d ws we : Int) :
    ∀ (rs : List DateRange) (i0 : Nat) (sh : List Nat),
      (range_scan ws we i0 rs sh).1.countP (isDetailEntryFor d) = 0 := by
  intro rs
  induction rs with
  | nil =>
    intro i0 sh
    rfl
  | cons r rest ih =>
    intro i0 sh
    rw [range_scan]
    split
    · rw [List.countP_cons]
      simp [isDetailEntryFor, ih]
    · exact ih _ _

theorem countP_det_filterMap (cal : Calendar) (d : Int) :
    ∀ ds : List Int, ds.Nodup →
      (ds.filterMap (fun date => (cal.details date).map (fun det => (date, det)))).countP
        (fun p => decide (p.1 = d)) =
      if d ∈ ds ∧ (cal.details d).isSome then 1 else 0 := by
  intro ds
  induction ds with
  | nil =>
    intro hnodup
    simp
  | cons d0 rest ih =>
    intro hnodup
    rw [List.filterMap_cons]
    cases hd0 : cal.details d0 with
    | none =>
      simp only [Option.map_none']
      rw [ih (List.nodup_cons.mp hnodup).2]
      by_cases he : d = d0
      · rw [← he] at hd0
        simp [hd0]
      · simp only [List.mem_cons]
        congr 1
        simp [he]
    | some det0 =>
      simp only [Option.map_some']
      rw [List.countP_cons, ih (List.nodup_cons.mp hnodup).2]
      by_cases he : d = d0
      · subst he
        have hnm : d ∉ rest := (List.nodup_cons.mp hnodup).1
        simp [hd0, hnm]
      · simp only [List.mem_cons]
        have hdec : (decide ((d0, det0).1 = d)) = false := by
          simp
          exact fun h => he h.symm
        rw [hdec]
        simp only [Bool.false_eq_true, if_false, Nat.add_zero]
        congr 1
        simp [he]

theorem range_scan_count_lt (ws we : Int) :
    ∀ (rs : List DateRange) (i0 : Nat) (sh : List Nat) (j : Nat), j < i0 →
      (range_scan ws we i0 rs sh).1.countP (isRangeEntryFor j) = 0 := by
  intro rs
  induction rs with
  | nil =>
    intro i0 sh j hj
    rfl
  | cons r rest ih =>
    intro i0 sh j hj
    rw [range_scan]
    split
    · rw [List.countP_cons]
      have : (isRangeEntryFor j (Entry.range i0)) = false := by
        simp [isRangeEntryFor]
        omega
      rw [this]
      simp [ih (i0 + 1) (sh ++ [i0]) j (by omega)]
    · exact ih (i0 + 1) sh j (by omega)

theorem range_scan_count_shown (ws we : Int) :
    ∀ (rs : List DateRange) (i0 : Nat) (sh : List Nat) (j : Nat), j ∈ sh →
      (range_scan ws we i0 rs sh).1.countP (isRangeEntryFor j) = 0 := by
  intro rs
  induction rs with
  | nil =>
    intro i0 sh j hj
    rfl
  | cons r rest ih =>
    intro i0 sh j hj
    rw [range_scan]
    split
    · rename_i hfire
      have hne : i0 ≠ j := by
        intro he
        rw [he] at hfire
        exact hfire.1 ((contains_iff_mem sh j).mpr hj)
      rw [List.countP_cons]
      have : (isRangeEntryFor j (Entry.range i0)) = false := by
        simp [isRangeEntryFor, hne]
      rw [this]
      simp [ih (i0 + 1) (sh ++ [i0]) j (List.mem_append_left _ hj)]
    · exact ih (i0 + 1) sh j hj

theorem range_scan_count_in (ws we : Int) :
    ∀ (rs : List DateRange) (i0 : Nat) (sh : List Nat) (j : Nat) (r : DateRange),
      i0 ≤ j → rs[j - i0]? = some r →
      (range_scan ws we i0 rs sh).1.countP (isRangeEntryFor j) =
        if ¬ j ∈ sh ∧ r.start ≤ we ∧ ws ≤ r.endDate then 1 else 0 := by
  intro rs
  induction rs with
  | nil =>
    intro i0 sh j r hle hget
    simp at hget
  | cons r0 rest ih =>
    intro i0 sh j r hle hget
    by_cases hj : j = i0
    · rw [hj] at hget ⊢
      rw [Nat.sub_self] at hget
      rw [List.getElem?_cons_zero] at hget
      cases hget
      rw [range_scan]
      split
      · rename_i hfire
        rw [List.countP_cons]
        have h1 : (isRangeEntryFor i0 (Entry.range i0)) = true := by
          simp [isRangeEntryFor]
        rw [h1, range_scan_count_lt ws we rest (i0 + 1) (sh ++ [i0]) i0 (by omega)]
        have hcond : i0 ∉ sh ∧ r0.start ≤ we ∧ ws ≤ r0.endDate :=
          ⟨fun hmem => hfire.1 ((contains_iff_mem sh i0).mpr hmem),
            hfire.2.1, hfire.2.2⟩
        rw [if_pos hcond]
        simp
      · rename_i hfire
        rw [range_scan_count_lt ws we rest (i0 + 1) sh i0 (by omega)]
        rw [if_neg]
        intro hc
        exact hfire ⟨fun hcont => hc.1 ((contains_iff_mem sh i0).mp hcont), hc.2⟩
    · have hlt : i0 < j := lt_of_le_of_ne hle (Ne.symm hj)
      have hsub : j - i0 = (j - (i0 + 1)) + 1 := by omega
      rw [hsub, List.getElem?_cons_succ] at hget
      rw [range_scan]
      split
      · rw [List.countP_cons]
        have h0 : (isRangeEntryFor j (Entry.range i0)) = false := by
          simp [isRangeEntryFor]
          omega
        rw [h0]
        simp only [Bool.false_eq_true, if_false, Nat.add_zero]
        rw [ih (i0 + 1) (sh ++ [i0]) j r (by omega) hget]
        have : (j ∈ sh ++ [i0]) ↔ j ∈ sh := by
          simp [Ne.symm hj]
          omega
        rw [if_congr (by rw [this]) rfl rfl]
      · exact ih (i0 + 1) sh j r (by omega) hget

theorem range_scan_count_big (ws we : Int) :
    ∀ (rs : List DateRange) (i0 : Nat) (sh : List Nat) (j : Nat),
      i0 + rs.length ≤ j →
      (range_scan ws we i0 rs sh).1.countP (isRangeEntryFor j) = 0 := by
  intro rs
  induction rs with
  | nil =>
    intro i0 sh j hj
    rfl
  | cons r rest ih =>
    intro i0 sh j hj
    rw [List.length_cons] at hj
    rw [range_scan]
    split
    · rw [List.countP_cons]
      have : (isRangeEntryFor j (Entry.range i0)) = false := by
        simp [isRangeEntryFor]
        omega
      rw [this]
      simp [ih (i0 + 1) (sh ++ [i0]) j (by omega)]
    · exact ih (i0 + 1) sh j (by omega)

theorem range_scan_shown_mono (ws we : Int) :
    ∀ (rs : List DateRange) (i0 : Nat) (sh : List Nat) (j : Nat), j ∈ sh →
      j ∈ (range_scan ws we i0 rs sh).2 := by
  intro rs
  induction rs with
  | nil =>
    intro i0 sh j hj
    exact hj
  | cons r rest ih =>
    intro i0 sh j hj
    rw [range_scan]
    split
    · exact ih (i0 + 1) (sh ++ [i0]) j (List.mem_append_left _ hj)
    · exact ih (i0 + 1) sh j hj

theorem range_scan_shown_add (ws we : Int) :
    ∀ (rs : List DateRange) (i0 : Nat) (sh : List Nat) (j : Nat) (r : DateRange),
      i0 ≤ j → rs[j - i0]? = some r → ¬ j ∈ sh →
      r.start ≤ we → ws ≤ r.endDate →
      j ∈ (range_scan ws we i0 rs sh).2 := by
  intro rs
  induction rs with
  | nil =>
    intro i0 sh j r hle hget
    simp at hget
  | cons r0 rest ih =>
    intro i0 sh j r hle hget hnm h1 h2
    by_cases hj : j = i0
    · rw [hj] at hget hnm ⊢
      rw [Nat.sub_self, List.getElem?_cons_zero] at hget
      cases hget
      rw [range_scan]
      rw [if_pos ⟨fun hcont => hnm ((contains_iff_mem sh i0).mp hcont), h1, h2⟩]
      exact range_scan_shown_mono ws we rest (i0 + 1) (sh ++ [i0]) i0
        (List.mem_append_right _ (List.mem_singleton.mpr rfl))
    · have hsub : j - i0 = (j - (i0 + 1)) + 1 := by omega
      rw [hsub, List.getElem?_cons_succ] at hget
      rw [range_scan]
      split
      · refine ih (i0 + 1) (sh ++ [i0]) j r (by omega) hget ?_ h1 h2
        intro hmem
        rcases List.mem_append.mp hmem with hl | hr
        · exact hnm hl
        · exact hj (List.mem_singleton.mp hr)
      · exact ih (i0 + 1) sh j r (by omega) hget hnm h1 h2

theorem range_scan_shown_sub (ws we : Int) :
    ∀ (rs : List DateRange) (i0 : Nat) (sh : List Nat) (j : Nat),
      j ∈ (range_scan ws we i0 rs sh).2 →
      j ∈ sh ∨ (i0 ≤ j ∧ ∃ r, rs[j - i0]? = some r ∧
        r.start ≤ we ∧ ws ≤ r.endDate) := by
  intro rs
  induction rs with
  | nil =>
    intro i0 sh j hj
    exact Or.inl hj
  | cons r0 rest ih =>
    intro i0 sh j hj
    rw [range_scan] at hj
    split at hj
    · rename_i hfire
      rcases ih (i0 + 1) (sh ++ [i0]) j hj with hmem | ⟨hle, r, hget, h1, h2⟩
      · rcases List.mem_append.mp hmem with hl | hr
        · exact Or.inl hl
        · have hj0 : j = i0 := List.mem_singleton.mp hr
          refine Or.inr ⟨by omega, r0, ?_, hfire.2.1, hfire.2.2⟩
          rw [hj0, Nat.sub_self, List.getElem?_cons_zero]
      · refine Or.inr ⟨by omega, r, ?_, h1, h2⟩
        rw [show j - i0 = (j - (i0 + 1)) + 1 by omega, List.getElem?_cons_succ]
        exact hget
    · rcases ih (i0 + 1) sh j hj with hmem | ⟨hle, r, hget, h1, h2⟩
      · exact Or.inl hmem
      · refine Or.inr ⟨by omega, r, ?_, h1, h2⟩
        rw [show j - i0 = (j - (i0 + 1)) + 1 by omega, List.getElem?_cons_succ]
        exact hget

theorem det_total_nil (d : Int) : det_total [] d = 0 := rfl

theorem det_total_cons (rec : WeekRec) (rest : List WeekRec) (d : Int) :
    det_total (rec :: rest) d =
      rec.entries.countP (isDetailEntryFor d) + det_total rest d := by
  simp [det_total]

theorem range_total_nil (j : Nat) : range_total [] j = 0 := rfl

theorem range_total_cons (rec : WeekRec) (rest : List WeekRec) (j : Nat) :
    range_total (rec :: rest) j =
      rec.entries.countP (isRangeEntryFor j) + range_total rest j := by
  simp [range_total]

theorem range_total_zero_each (j : Nat) :
    ∀ (L : List WeekRec), range_total L j = 0 →
      ∀ (i : Nat) (rec : WeekRec), L[i]? = some rec →
        rec.entries.countP (isRangeEntryFor j) = 0 := by
  intro L
  induction L with
  | nil =>
    intro h i rec hget
    simp at hget
  | cons rec0 rest ih =>
    intro h i rec hget
    rw [range_total_cons] at h
    cases i with
    | zero =>
      rw [List.getElem?_cons_zero] at hget
      cases hget
      omega
    | succ i2 =>
      rw [List.getElem?_cons_succ] at hget
      exact ih (by omega) i2 rec hget

theorem walk_start_ge (cal : Calendar) (today endD : Int) :
    ∀ (fuel : Nat) (s wn : Int) (cm : Option Int) (q : List (Int × DateDetail))
      (sh : List Nat) (fir : Bool) (i : Nat) (rec : WeekRec),
      (weeks_walk cal today endD fuel s wn cm q sh fir)[i]? = some rec →
      s ≤ rec.start := by
  intro fuel
  induction fuel with
  | zero =>
    intro s wn cm q sh fir i rec hget
    simp [weeks_walk] at hget
  | succ f ih =>
    intro s wn cm q sh fir i rec hget
    by_cases h1 : endD < s
    · rw [weeks_walk_stop cal today endD f s wn cm q sh fir h1] at hget
      simp at hget
    · by_cases h2 : should_render_week cal today (WeekLayout.new s) = true
      · rw [weeks_walk_emit cal today endD f s wn cm q sh fir h1 h2] at hget
        cases i with
        | zero =>
          rw [List.getElem?_cons_zero] at hget
          cases hget
          rw [week_rec_start]
        | succ i2 =>
          rw [List.getElem?_cons_succ] at hget
          by_cases h3 : cal.year < toYear (s + 7)
          · rw [if_pos h3] at hget
            simp at hget
          · rw [if_neg h3] at hget
            have := ih _ _ _ _ _ _ i2 rec hget
            omega
      · rw [weeks_walk_skip cal today endD f s wn cm q sh fir h1
          (Bool.eq_false_iff.mpr h2)] at hget
        have := ih _ _ _ _ _ _ i rec hget
        omega

theorem walk_starts_lt (cal : Calendar) (today endD : Int) :
    ∀ (fuel : Nat) (s wn : Int) (cm : Option Int) (q : List (Int × DateDetail))
      (sh : List Nat) (fir : Bool) (i2 i : Nat) (rec2 rec : WeekRec), i2 < i →
      (weeks_walk cal today endD fuel s wn cm q sh fir)[i2]? = some rec2 →
      (weeks_walk cal today endD fuel s wn cm q sh fir)[i]? = some rec →
      rec2.start + 7 ≤ rec.start := by
  intro fuel
  induction fuel with
  | zero =>
    intro s wn cm q sh fir i2 i rec2 rec hlt hget2 hget
    simp [weeks_walk] at hget2
  | succ f ih =>
    intro s wn cm q sh fir i2 i rec2 rec hlt hget2 hget
    by_cases h1 : endD < s
    · rw [weeks_walk_stop cal today endD f s wn cm q sh fir h1] at hget2
      simp at hget2
    · by_cases h2 : should_render_week cal today (WeekLayout.new s) = true
      · rw [weeks_walk_emit cal today endD f s wn cm q sh fir h1 h2] at hget2 hget
        by_cases h3 : cal.year < toYear (s + 7)
        · rw [if_pos h3] at hget2 hget
          cases i with
          | zero => omega
          | succ i3 =>
            rw [List.getElem?_cons_succ] at hget
            simp at hget
        · rw [if_neg h3] at hget2 hget
          cases i2 with
          | zero =>
            rw [List.getElem?_cons_zero] at hget2
            cases hget2
            rw [week_rec_start]
            cases i with
            | zero => omega
            | succ i3 =>
              rw [List.getElem?_cons_succ] at hget
              exact walk_start_ge cal today endD f _ _ _ _ _ _ i3 rec hget
          | succ i4 =>
            cases i with
            | zero => omega
            | succ i3 =>
              rw [List.getElem?_cons_succ] at hget2 hget
              exact ih _ _ _ _ _ _ i4 i3 rec2 rec (by omega) hget2 hget
      · rw [weeks_walk_skip cal today endD f s wn cm q sh fir h1
          (Bool.eq_false_iff.mpr h2)] at hget2 hget
        exact ih _ _ _ _ _ _ i2 i rec2 rec hlt hget2 hget

theorem walk_det_where (cal : Calendar) (today endD : Int) (d : Int) :
    ∀ (fuel : Nat) (s wn : Int) (cm : Option Int) (q : List (Int × DateDetail))
      (sh : List Nat) (fir : Bool) (i : Nat) (rec : WeekRec),
      (weeks_walk cal today endD fuel s wn cm q sh fir)[i]? = some rec →
      rec.entries.countP (isDetailEntryFor d) ≠ 0 →
      rec.start ≤ d ∧ d ≤ rec.start + 6 := by
  intro fuel
  induction fuel with
  | zero =>
    intro s wn cm q sh fir i rec hget hcnt
    simp [weeks_walk] at hget
  | succ f ih =>
    intro s wn cm q sh fir i rec hget hcnt
    by_cases h1 : endD < s
    · rw [weeks_walk_stop cal today endD f s wn cm q sh fir h1] at hget
      simp at hget
    · by_cases h2 : should_render_week cal today (WeekLayout.new s) = true
      · rw [weeks_walk_emit cal today endD f s wn cm q sh fir h1 h2] at hget
        cases i with
        | zero =>
          rw [List.getElem?_cons_zero] at hget
          cases hget
          rw [week_rec_entries, List.countP_append, countP_det_of_map_det,
            countP_det_of_range_scan] at hcnt
          have hne : ((collect_details cal (WeekLayout.new s) q).filter
              (fun p => decide (s ≤ p.1 ∧ p.1 ≤ s + 6))).countP
                (fun p => decide (p.1 = d)) ≠ 0 := by omega
          rw [Ne, List.countP_eq_zero] at hne
          push_neg at hne
          obtain ⟨p, hp, hpd⟩ := hne
          have hspan := List.of_mem_filter hp
          simp only [decide_eq_true_eq] at hspan hpd
          rw [week_rec_start]
          omega
        | succ i2 =>
          rw [List.getElem?_cons_succ] at hget
          by_cases h3 : cal.year < toYear (s + 7)
          · rw [if_pos h3] at hget
            simp at hget
          · rw [if_neg h3] at hget
            exact ih _ _ _ _ _ _ i2 rec hget hcnt
      · rw [weeks_walk_skip cal today endD f s wn cm q sh fir h1
          (Bool.eq_false_iff.mpr h2)] at hget
        exact ih _ _ _ _ _ _ i rec hget hcnt

theorem walk_det_zero (cal : Calendar) (today endD : Int) (d : Int) :
    ∀ (fuel : Nat) (s wn : Int) (cm : Option Int) (q : List (Int × DateDetail))
      (sh : List Nat) (fir : Bool), d < s → (∀ p ∈ q, p.1 ≠ d) →
      det_total (weeks_walk cal today endD fuel s wn cm q sh fir) d = 0 := by
  intro fuel
  induction fuel with
  | zero =>
    intro s wn cm q sh fir hlt hq
    simp [weeks_walk, det_total]
  | succ f ih =>
    intro s wn cm q sh fir hlt hq
    by_cases h1 : endD < s
    · rw [weeks_walk_stop cal today endD f s wn cm q sh fir h1]
      rfl
    · have hcoll : ∀ p ∈ collect_details cal (WeekLayout.new s) q, p.1 ≠ d := by
        intro p hp
        rcases collect_details_mem cal _ q p hp with hmem | hdates
        · exact hq p hmem
        · have := mem_week_dates.mp hdates
          omega
      by_cases h2 : should_render_week cal today (WeekLayout.new s) = true
      · rw [weeks_walk_emit cal today endD f s wn cm q sh fir h1 h2]
        rw [det_total_cons, week_rec_entries, List.countP_append,
          countP_det_of_map_det, countP_det_of_range_scan]
        have hzero : ((collect_details cal (WeekLayout.new s) q).filter
            (fun p => decide (s ≤ p.1 ∧ p.1 ≤ s + 6))).countP
              (fun p => decide (p.1 = d)) = 0 := by
          rw [List.countP_eq_zero]
          intro p hp
          simp only [decide_eq_true_eq]
          exact hcoll p (List.mem_of_mem_filter hp)
        rw [hzero]
        by_cases h3 : cal.year < toYear (s + 7)
        · rw [if_pos h3]
          rfl
        · rw [if_neg h3]
          have hq2 : ∀ p ∈ (week_new_state cal s cm q sh fir).2.1, p.1 ≠ d := by
            rw [week_new_state_queue]
            intro p hp
            exact hcoll p (List.mem_of_mem_filter hp)
          rw [ih _ _ _ _ _ _ (by omega) hq2]
      · rw [weeks_walk_skip cal today endD f s wn cm q sh fir h1
          (Bool.eq_false_iff.mpr h2)]
        exact ih _ _ _ _ _ _ (by omega) hq

theorem walk_range_zero (cal : Calendar) (today endD : Int) :
    ∀ (fuel : Nat) (s wn : Int) (cm : Option Int) (q : List (Int × DateDetail))
      (sh : List Nat) (fir : Bool) (j : Nat), j ∈ sh →
      range_total (weeks_walk cal today endD fuel s wn cm q sh fir) j = 0 := by
  intro fuel
  induction fuel with
  | zero =>
    intro s wn cm q sh fir j hj
    simp [weeks_walk, range_total]
  | succ f ih =>
    intro s wn cm q sh fir j hj
    by_cases h1 : endD < s
    · rw [weeks_walk_stop cal today endD f s wn cm q sh fir h1]
      rfl
    · by_cases h2 : should_render_week cal today (WeekLayout.new s) = true
      · rw [weeks_walk_emit cal today endD f s wn cm q sh fir h1 h2]
        rw [range_total_cons, week_rec_entries, List.countP_append,
          countP_range_of_map_det, range_scan_count_shown s (s + 6) _ _ _ _ hj]
        by_cases h3 : cal.year < toYear (s + 7)
        · rw [if_pos h3]
          rfl
        · rw [if_neg h3]
          have hj2 : j ∈ (week_new_state cal s cm q sh fir).2.2.1 := by
            rw [week_new_state_shown]
            exact range_scan_shown_mono s (s + 6) _ _ _ _ hj
          rw [ih _ _ _ _ _ _ j hj2]
      · rw [weeks_walk_skip cal today endD f s wn cm q sh fir h1
          (Bool.eq_false_iff.mpr h2)]
        exact ih _ _ _ _ _ _ j hj

theorem walk_det_once (cal : Calendar) (today : Int)
    (hAll : cal.month_filter = MonthFilter.All) (d : Int)
    (hd : (cal.details d).isSome) :
    ∀ (fuel : Nat) (s wn : Int) (cm : Option Int) (sh : List Nat) (fir : Bool),
      (daysFromCivil cal.year 12 31 + 1 - s).toNat ≤ fuel →
      daysFromCivil cal.year 1 1 - 6 ≤ s → s ≤ d →
      d ≤ daysFromCivil cal.year 12 31 →
      det_total (weeks_walk cal today (daysFromCivil cal.year 12 31) fuel s wn cm
        [] sh fir) d = 1 := by
  intro fuel
  induction fuel with
  | zero =>
    intro s wn cm sh fir hfuel h1 h2 h3
    omega
  | succ f ih =>
    intro s wn cm sh fir hfuel h1 h2 h3
    have hs2 : s ≤ daysFromCivil cal.year 12 31 := le_trans h2 h3
    have hns : ¬ daysFromCivil cal.year 12 31 < s := not_lt.mpr hs2
    have hr := should_render_all cal today s hAll h1 hs2
    rw [weeks_walk_emit cal today _ f s wn cm [] sh fir hns hr]
    rw [det_total_cons, week_rec_entries, List.countP_append,
      countP_det_of_map_det, countP_det_of_range_scan]
    have hfid : ((collect_details cal (WeekLayout.new s) []).filter
        (fun p => decide (s ≤ p.1 ∧ p.1 ≤ s + 6))) =
        collect_details cal (WeekLayout.new s) [] := by
      rw [List.filter_eq_self]
      intro p hp
      rcases collect_details_mem cal _ [] p hp with hmem | hdates
      · simp at hmem
      · have := mem_week_dates.mp hdates
        simp only [decide_eq_true_eq]
        omega
    have hqnil : ((collect_details cal (WeekLayout.new s) []).filter
        (fun p => decide (¬ (s ≤ p.1 ∧ p.1 ≤ s + 6)))) = [] := by
      rw [List.filter_eq_nil_iff]
      intro p hp
      rcases collect_details_mem cal _ [] p hp with hmem | hdates
      · simp at hmem
      · have := mem_week_dates.mp hdates
        simp only [decide_eq_true_eq]
        omega
    rw [hfid, collect_details_week cal s,
      countP_det_filterMap cal d _ (week_dates_nodup s)]
    by_cases hin : d ≤ s + 6
    · rw [if_pos ⟨mem_week_dates.mpr ⟨h2, hin⟩, hd⟩]
      by_cases h3b : cal.year < toYear (s + 7)
      · rw [if_pos h3b]
        rfl
      · rw [if_neg h3b]
        have htail : det_total (weeks_walk cal today (daysFromCivil cal.year 12 31)
            f (s + 7) (wn + 1) (week_new_state cal s cm [] sh fir).1
            (week_new_state cal s cm [] sh fir).2.1
            (week_new_state cal s cm [] sh fir).2.2.1
            (week_new_state cal s cm [] sh fir).2.2.2) d = 0 := by
          rw [week_new_state_queue, hqnil]
          exact walk_det_zero cal today _ d f (s + 7) _ _ _ _ _ (by omega)
            (by intro p hp; simp at hp)
        rw [htail]
    · rw [if_neg (by
        intro hc
        exact hin (mem_week_dates.mp hc.1).2)]
      have hnb : ¬ cal.year < toYear (s + 7) := by
        have : toYear (s + 7) ≤ cal.year := toYear_le_of_le_dec31 (by omega)
        omega
      rw [if_neg hnb]
      rw [week_new_state_queue, hqnil]
      have := ih (s + 7) (wn + 1) (week_new_state cal s cm [] sh fir).1
        (week_new_state cal s cm [] sh fir).2.2.1
        (week_new_state cal s cm [] sh fir).2.2.2
        (by omega) (by omega) (by omega) h3
      rw [this]

theorem walk_range_once (cal : Calendar) (today : Int)
    (hAll : cal.month_filter = MonthFilter.All) (j : Nat) (r : DateRange)
    (hget : cal.ranges[j]? = some r) (hse : r.start ≤ r.endDate)
    (hrs : r.start ≤ daysFromCivil cal.year 12 31) :
    ∀ (fuel : Nat) (s wn : Int) (cm : Option Int) (q : List (Int × DateDetail))
      (sh : List Nat) (fir : Bool),
      (daysFromCivil cal.year 12 31 + 1 - s).toNat ≤ fuel →
      daysFromCivil cal.year 1 1 - 6 ≤ s → s ≤ daysFromCivil cal.year 12 31 →
      s ≤ r.endDate → ¬ j ∈ sh →
      range_total (weeks_walk cal today (daysFromCivil cal.year 12 31) fuel s wn cm
        q sh fir) j = 1 := by
  intro fuel
  induction fuel with
  | zero =>
    intro s wn cm q sh fir hfuel h1 h2 h3 h4
    omega
  | succ f ih =>
    intro s wn cm q sh fir hfuel h1 h2 h3 h4
    have hns : ¬ daysFromCivil cal.year 12 31 < s := not_lt.mpr h2
    have hr := should_render_all cal today s hAll h1 h2
    rw [weeks_walk_emit cal today _ f s wn cm q sh fir hns hr]
    rw [range_total_cons, week_rec_entries, List.countP_append,
      countP_range_of_map_det,
      range_scan_count_in s (s + 6) cal.ranges 0 sh j r (by omega)
        (by simpa using hget)]
    by_cases hfire : r.start ≤ s + 6
    · rw [if_pos ⟨h4, hfire, h3⟩]
      by_cases h3b : cal.year < toYear (s + 7)
      · rw [if_pos h3b]
        rfl
      · rw [if_neg h3b]
        have hmem : j ∈ (week_new_state cal s cm q sh fir).2.2.1 := by
          rw [week_new_state_shown]
          exact range_scan_shown_add s (s + 6) cal.ranges 0 sh j r (by omega)
            (by simpa using hget) h4 hfire h3
        rw [walk_range_zero cal today _ f (s + 7) _ _ _ _ _ j hmem]
    · rw [if_neg (fun hc => hfire hc.2.1)]
      have hs7 : s + 7 ≤ r.start := by omega
      have hnb : ¬ cal.year < toYear (s + 7) := by
        have : toYear (s + 7) ≤ cal.year := toYear_le_of_le_dec31 (by omega)
        omega
      rw [if_neg hnb]
      have hnotmem : ¬ j ∈ (week_new_state cal s cm q sh fir).2.2.1 := by
        rw [week_new_state_shown]
        intro hmem
        rcases range_scan_shown_sub s (s + 6) cal.ranges 0 sh j hmem with
          hsh | ⟨hle, r2, hget2, hr1, hr2⟩
        · exact h4 hsh
        · rw [Nat.sub_zero, hget] at hget2
          cases hget2
          omega
      rw [ih (s + 7) (wn + 1) _ _ _ _ (by omega) (by omega) (by omega)
        (by omega) hnotmem]

theorem walk_range_where (cal : Calendar) (today endD : Int) (j : Nat)
    (r : DateRange) (hget : cal.ranges[j]? = some r) :
    ∀ (fuel : Nat) (s wn : Int) (cm : Option Int) (q : List (Int × DateDetail))
      (sh : List Nat) (fir : Bool), ¬ j ∈ sh →
      ∀ (i : Nat) (rec : WeekRec),
        (weeks_walk cal today endD fuel s wn cm q sh fir)[i]? = some rec →
        rec.entries.countP (isRangeEntryFor j) ≠ 0 →
        (r.start ≤ rec.start + 6 ∧ rec.start ≤ r.endDate) ∧
        (∀ (i2 : Nat) (rec2 : WeekRec), i2 < i →
          (weeks_walk cal today endD fuel s wn cm q sh fir)[i2]? = some rec2 →
          ¬ (r.start ≤ rec2.start + 6 ∧ rec2.start ≤ r.endDate)) := by
  intro fuel
  induction fuel with
  | zero =>
    intro s wn cm q sh fir hsh i rec hgetr hcnt
    simp [weeks_walk] at hgetr
  | succ f ih =>
    intro s wn cm q sh fir hsh i rec hgetr hcnt
    by_cases h1 : endD < s
    · rw [weeks_walk_stop cal today endD f s wn cm q sh fir h1] at hgetr
      simp at hgetr
    · by_cases h2 : should_render_week cal today (WeekLayout.new s) = true
      · rw [weeks_walk_emit cal today endD f s wn cm q sh fir h1 h2] at hgetr
        cases i with
        | zero =>
          rw [List.getElem?_cons_zero] at hgetr
          cases hgetr
          rw [week_rec_entries, List.countP_append, countP_range_of_map_det,
            range_scan_count_in s (s + 6) cal.ranges 0 sh j r (by omega)
              (by simpa using hget)] at hcnt
          split at hcnt
          · rename_i hcond
            refine ⟨?_, ?_⟩
            · rw [week_rec_start]
              exact ⟨hcond.2.1, hcond.2.2⟩
            · intro i2 rec2 hi2 hget2
              omega
          · omega
        | succ i3 =>
          rw [List.getElem?_cons_succ] at hgetr
          by_cases h3 : cal.year < toYear (s + 7)
          · rw [if_pos h3] at hgetr
            simp at hgetr
          · rw [if_neg h3] at hgetr
            by_cases hfire : r.start ≤ s + 6 ∧ s ≤ r.endDate
            · exfalso
              have hmem : j ∈ (week_new_state cal s cm q sh fir).2.2.1 := by
                rw [week_new_state_shown]
                exact range_scan_shown_add s (s + 6) cal.ranges 0 sh j r
                  (by omega) (by simpa using hget) hsh hfire.1 hfire.2
              have hzero := walk_range_zero cal today endD f (s + 7) (wn + 1)
                (week_new_state cal s cm q sh fir).1
                (week_new_state cal s cm q sh fir).2.1
                (week_new_state cal s cm q sh fir).2.2.1
                (week_new_state cal s cm q sh fir).2.2.2 j hmem
              exact hcnt (range_total_zero_each j _ hzero i3 rec hgetr)
            · have hnotmem : ¬ j ∈ (week_new_state cal s cm q sh fir).2.2.1 := by
                rw [week_new_state_shown]
                intro hmem
                rcases range_scan_shown_sub s (s + 6) cal.ranges 0 sh j hmem with
                  hsh2 | ⟨hle, r2, hget2, hr1, hr2⟩
                · exact hsh hsh2
                · rw [Nat.sub_zero, hget] at hget2
                  cases hget2
                  exact hfire ⟨hr1, hr2⟩
              obtain ⟨hspan, hearlier⟩ := ih _ _ _ _ _ _ hnotmem i3 rec hgetr hcnt
              refine ⟨hspan, ?_⟩
              intro i2 rec2 hi2 hget2
              rw [weeks_walk_emit cal today endD f s wn cm q sh fir h1 h2] at hget2
              cases i2 with
              | zero =>
                rw [List.getElem?_cons_zero] at hget2
                cases hget2
                rw [week_rec_start]
                exact hfire
              | succ i4 =>
                rw [List.getElem?_cons_succ, if_neg h3] at hget2
                exact hearlier i4 rec2 (by omega) hget2
      · rw [weeks_walk_skip cal today endD f s wn cm q sh fir h1
          (Bool.eq_false_iff.mpr h2)] at hgetr ⊢
        obtain ⟨hspan, hearlier⟩ := ih _ _ _ _ _ _ hsh i rec hgetr hcnt
        exact ⟨hspan, hearlier⟩

theorem ranges_first_color_eq_find (l : List DateRange) (date : Int) :
    ranges_first_color l date =
      (l.find? (fun r => decide (r.start ≤ date ∧ date ≤ r.endDate))).map
        (fun r => r.color) := by
  induction l with
  | nil => rfl
  | cons r rest ih =>
    rw [ranges_first_color]
    by_cases h : r.start ≤ date ∧ date ≤ r.endDate
    · rw [if_pos h, List.find?_cons_of_pos _ (by simpa using h)]
      rfl
    · rw [if_neg h, List.find?_cons_of_neg _ (by simpa using h)]
      exact ih

theorem get_date_color_eq_spec (cal : Calendar) (date : Int) :
    get_date_color cal date = resolveSpec cal date := by
  unfold get_date_color resolveSpec
  split_ifs with h1
  · rfl
  · cases hd : cal.details date with
    | none => simp [Option.bind, ranges_first_color_eq_find, firstRangeOf]
    | some det =>
      cases hc : det.color with
      | none => simp [Option.bind, hc, ranges_first_color_eq_find, firstRangeOf]
      | some c => simp [Option.bind, hc]

/-- C1: for every date the color resolver follows the fixed precedence:
work-mode weekend suppression yields no color; otherwise an explicit
point-detail color wins; otherwise the first range in stored insertion
order containing the date; otherwise no color.  The resolver agrees with
the spec-worded `resolveSpec`, and exactly one of the four outcomes applies
to any date, the work-mode override winning whenever active. -/
theorem color_resolver_precedence (cal : Calendar) (date : Int) :
    get_date_color cal date = resolveSpec cal date ∧
    (workOutcome cal date → get_date_color cal date = none) ∧
    (¬ workOutcome cal date → ∀ c, detailColorOf cal date = some c →
      get_date_color cal date = some c) ∧
    (¬ workOutcome cal date → detailColorOf cal date = none →
      get_date_color cal date = (firstRangeOf cal date).map (fun r => r.color)) ∧
    ((workOutcome cal date) ∨
      (¬ workOutcome cal date ∧ detailColorOf cal date ≠ none) ∨
      (¬ workOutcome cal date ∧ detailColorOf cal date = none ∧
        firstRangeOf cal date ≠ none) ∨
      (¬ workOutcome cal date ∧ detailColorOf cal date = none ∧
        firstRangeOf cal date = none)) ∧
    ¬ (workOutcome cal date ∧ ¬ workOutcome cal date) ∧
    ¬ (detailColorOf cal date ≠ none ∧ detailColorOf cal date = none) ∧
    ¬ (firstRangeOf cal date ≠ none ∧ firstRangeOf cal date = none) := by
  have hspec := get_date_color_eq_spec cal date
  refine ⟨hspec, ?_, ?_, ?_, ?_, ?_, ?_, ?_⟩
  · intro hw
    unfold workOutcome at hw
    rw [hspec]
    unfold resolveSpec
    rw [if_pos hw]
  · intro hw c hc
    unfold workOutcome at hw
    rw [hspec]
    unfold resolveSpec
    rw [if_neg hw]
    unfold detailColorOf at hc
    rw [hc]
  · intro hw hc
    unfold workOutcome at hw
    rw [hspec]
    unfold resolveSpec
    rw [if_neg hw]
    unfold detailColorOf at hc
    rw [hc]
    rfl
  · by_cases hw : workOutcome cal date
    · exact Or.inl hw
    · by_cases hc : detailColorOf cal date = none
      · by_cases hr : firstRangeOf cal date = none
        · exact Or.inr (Or.inr (Or.inr ⟨hw, hc, hr⟩))
        · exact Or.inr (Or.inr (Or.inl ⟨hw, hc, hr⟩))
      · exact Or.inr (Or.inl ⟨hw, hc⟩)
  · tauto
  · tauto
  · tauto

theorem color_resolver_precedence_witness :
    get_date_color calWork (daysFromCivil 2024 7 6) = none :=
  (color_resolver_precedence calWork (daysFromCivil 2024 7 6)).2.1
    ⟨rfl, by decide⟩

/-- C4: refuted — `print_week_row` evaluates `chrono::Local::now()` inside
the per-cell loop (rendering.rs line 723), one read per day cell, not once
per pass.  Two clocks agreeing on the read made at the start of the pass
but diverging afterwards yield different styling for the same week row, so
the rendered output is not a function of a single today value: here the
cell for 2024-07-02 gains the today-underline while the cell for
2024-07-01 keeps it under the constant clock. -/
theorem print_week_row_reads_clock_per_cell :
    clockDrift 0 = clockConst 0 ∧
    print_week_row_cell_styles calClock (WeekLayout.new (daysFromCivil 2024 7 1))
        clockDrift ≠
      print_week_row_cell_styles calClock (WeekLayout.new (daysFromCivil 2024 7 1))
        clockConst := by
  constructor
  · rfl
  · decide

/-- C6: aligning any date to the configured week start yields a date whose
weekday index is 0, and re-aligning the result returns it unchanged. -/
theorem align_to_week_start_idempotent (cal : Calendar) (date : Int) :
    cal.get_weekday_num (align_to_week_start cal date) = 0 ∧
    align_to_week_start cal (align_to_week_start cal date) =
      align_to_week_start cal date := by
  refine ⟨align_weekday_zero cal date, ?_⟩
  rw [align_eq cal (align_to_week_start cal date), align_weekday_zero]
  ring

/-- C7: `CurrentWithFollowing n` resolves to today's month through
`min(today's month + n, 12)`; the end month is clamped at 12 and never
exceeds it, for every `n` and every year argument. -/
theorem current_with_following_clamped (n today year : Int) :
    MonthFilter.get_month_range (MonthFilter.CurrentWithFollowing n) today year =
      (toMonth today, min (toMonth today + n) 12) ∧
    (MonthFilter.get_month_range (MonthFilter.CurrentWithFollowing n) today year).2
      ≤ 12 := by
  constructor
  · by_cases h : year = toYear today <;> simp [MonthFilter.get_month_range, h]
  · by_cases h : year = toYear today <;> simp [MonthFilter.get_month_range, h]

/-- C8: `Current` resolves to (today's month, today's month) and the year
argument never changes the result, whether or not it equals today's
year. -/
theorem current_ignores_year (today y1 y2 : Int) :
    MonthFilter.get_month_range MonthFilter.Current today y1 =
      (toMonth today, toMonth today) ∧
    MonthFilter.get_month_range MonthFilter.Current today y1 =
      MonthFilter.get_month_range MonthFilter.Current today y2 := by
  constructor
  · by_cases h : y1 = toYear today <;> simp [MonthFilter.get_month_range, h]
  · by_cases h1 : y1 = toYear today <;> by_cases h2 : y2 = toYear today <;>
      simp [MonthFilter.get_month_range, h1, h2]

theorem weeks_render_all (cal : Calendar) (today : Int)
    (hAll : cal.month_filter = MonthFilter.All) :
    weeks_render cal today =
      weeks_walk cal today (daysFromCivil cal.year 12 31)
        ((daysFromCivil cal.year 12 31 + 1 -
          align_to_week_start cal (daysFromCivil cal.year 1 1)).toNat + 1)
        (align_to_week_start cal (daysFromCivil cal.year 1 1)) 1 none [] [] true := by
  unfold weeks_render
  rw [get_date_range_all cal today hAll]

/-- C2: in a full-year render (month filter All), every point detail whose
date lies in the rendered year appears in the annotation entries exactly
once, attached to the earliest emitted week whose 7-date span contains its
date, and every range overlapping the rendered year appears exactly once,
attached to the earliest emitted week whose span intersects its inclusive
[start, end]; no annotation is repeated on a later week. -/
theorem annotations_once_all (cal : Calendar) (today : Int)
    (hAll : cal.month_filter = MonthFilter.All) :
    (∀ (d : Int) (det : DateDetail), cal.details d = some det →
      daysFromCivil cal.year 1 1 ≤ d → d ≤ daysFromCivil cal.year 12 31 →
      det_total (weeks_render cal today) d = 1 ∧
      ∀ (i : Nat) (rec : WeekRec), (weeks_render cal today)[i]? = some rec →
        rec.entries.countP (isDetailEntryFor d) ≠ 0 →
        (rec.start ≤ d ∧ d ≤ rec.start + 6) ∧
        ∀ (i2 : Nat) (rec2 : WeekRec), i2 < i →
          (weeks_render cal today)[i2]? = some rec2 →
          ¬ (rec2.start ≤ d ∧ d ≤ rec2.start + 6)) ∧
    (∀ (j : Nat) (r : DateRange), cal.ranges[j]? = some r →
      r.start ≤ r.endDate → r.start ≤ daysFromCivil cal.year 12 31 →
      daysFromCivil cal.year 1 1 ≤ r.endDate →
      range_total (weeks_render cal today) j = 1 ∧
      ∀ (i : Nat) (rec : WeekRec), (weeks_render cal today)[i]? = some rec →
        rec.entries.countP (isRangeEntryFor j) ≠ 0 →
        (r.start ≤ rec.start + 6 ∧ rec.start ≤ r.endDate) ∧
        ∀ (i2 : Nat) (rec2 : WeekRec), i2 < i →
          (weeks_render cal today)[i2]? = some rec2 →
          ¬ (r.start ≤ rec2.start + 6 ∧ rec2.start ≤ r.endDate)) := by
  have hb := weeks_render_all cal today hAll
  have hal := align_bounds cal (daysFromCivil cal.year 1 1)
  have hjd := jan1_le_dec31 cal.year
  constructor
  · intro d det hdet h1 h2
    have hds : (cal.details d).isSome := by rw [hdet]; rfl
    constructor
    · rw [hb]
      exact walk_det_once cal today hAll d hds _ _ 1 none [] true (by omega)
        (by omega) (by omega) h2
    · intro i rec hget hcnt
      rw [hb] at hget
      have hspan := walk_det_where cal today _ d _ _ _ _ _ _ _ i rec hget hcnt
      refine ⟨hspan, ?_⟩
      intro i2 rec2 hi2 hget2
      rw [hb] at hget2
      have := walk_starts_lt cal today _ _ _ _ _ _ _ _ i2 i rec2 rec hi2 hget2 hget
      omega
  · intro j r hget hse hrs hre
    constructor
    · rw [hb]
      exact walk_range_once cal today hAll j r hget hse hrs _ _ 1 none [] [] true
        (by omega) (by omega) (by omega) (by omega) (by simp)
    · intro i rec hgetr hcnt
      rw [hb] at hgetr
      obtain ⟨hspan, hearly⟩ := walk_range_where cal today _ j r hget _ _ _ _ _ _ _
        (by simp) i rec hgetr hcnt
      refine ⟨hspan, ?_⟩
      intro i2 rec2 hi2 hget2
      rw [hb] at hget2
      exact hearly i2 rec2 hi2 hget2

theorem annotations_once_all_witness :
    det_total (weeks_render calAll 0) (daysFromCivil 2024 7 4) = 1 ∧
    range_total (weeks_render calAll 0) 0 = 1 := by
  constructor
  · exact ((annotations_once_all calAll 0 rfl).1 (daysFromCivil 2024 7 4)
      ⟨"Holiday", none⟩ (by decide) (by decide) (by decide)).1
  · exact ((annotations_once_all calAll 0 rfl).2 0
      ⟨daysFromCivil 2024 12 24, daysFromCivil 2024 12 26, "red", some "Break"⟩
      (by decide) (by decide) (by decide) (by decide)).1

/-- C3: for every month-boundary index `idx` in 1..6, the month-opening
border, the mid-table separator and the pre-month separator all place
their boundary glyph (┬, ┘, ┌ respectively) at character column
`5*idx + 14`, preceded by a dash/space run of length `(idx-1)*5 + 4`
starting at column 15 and followed by a run of length `(7-idx)*5 - 1`:
the three independently computed layouts agree on glyph placement. -/
theorem border_glyph_alignment (cal : Calendar) (current_month : Option Int)
    (lay1 lay2 lay3 : WeekLayout) (idx : Nat) (m1 m3 : Int)
    (hge : 1 ≤ idx) (hle : idx ≤ 6)
    (h1 : lay1.month_start_idx = some (idx, m1))
    (h2 : first_bar_scan cal.year current_month lay2.dates 0 false none = some idx)
    (h3 : lay3.month_start_idx = some (idx, m3)) :
    ((month_border_chars lay1)[5 * idx + 14]? = some '┬' ∧
      ((month_border_chars lay1).drop 15).take ((idx - 1) * 5 + 4) =
        List.replicate ((idx - 1) * 5 + 4) '─' ∧
      ((month_border_chars lay1).drop (5 * idx + 15)).take ((7 - idx) * 5 - 1) =
        List.replicate ((7 - idx) * 5 - 1) '─') ∧
    ((separator_chars cal lay2 current_month)[5 * idx + 14]? = some '┘' ∧
      ((separator_chars cal lay2 current_month).drop 15).take ((idx - 1) * 5 + 4) =
        List.replicate ((idx - 1) * 5 + 4) '─' ∧
      ((separator_chars cal lay2 current_month).drop (5 * idx + 15)).take ((7 - idx) * 5 - 1) =
        List.replicate ((7 - idx) * 5 - 1) ' ') ∧
    ((separator_before_month_chars lay3)[5 * idx + 14]? = some '┌' ∧
      ((separator_before_month_chars lay3).drop 15).take ((idx - 1) * 5 + 4) =
        List.replicate ((idx - 1) * 5 + 4) ' ' ∧
      ((separator_before_month_chars lay3).drop (5 * idx + 15)).take ((7 - idx) * 5 - 1) =
        List.replicate ((7 - idx) * 5 - 1) '─') := by
  have e1 : month_border_chars lay1 =
      '│' :: (List.replicate 13 ' ' ++ ['┌'] ++ List.replicate ((idx - 1) * 5 + 4) '─'
        ++ ['┬'] ++ List.replicate ((7 - idx) * 5 - 1) '─' ++ ['┤', '\n']) := by
    unfold month_border_chars
    rw [h1]
    simp only
    rw [if_pos (by omega)]
  have e2 : separator_chars cal lay2 current_month =
      '│' :: (List.replicate 13 ' ' ++ ['├'] ++
        (List.replicate ((idx - 1) * 5 + 4) '─' ++ ['┘']
          ++ List.replicate ((7 - idx) * 5 - 1) ' ' ++ ['│', '\n'])) := by
    unfold separator_chars
    rw [h2]
    simp only
    rw [if_pos (by omega)]
  have e3 : separator_before_month_chars lay3 =
      '│' :: (List.replicate 13 ' ' ++ ['│'] ++ List.replicate ((idx - 1) * 5 + 4) ' '
        ++ ['┌'] ++ List.replicate ((7 - 1 - idx) * 5 + 4) '─' ++ ['┤', '\n']) := by
    unfold separator_before_month_chars
    rw [h3]
    simp only
    rw [if_neg (by omega)]
  rw [e1, e2, e3]
  interval_cases idx <;> exact ⟨⟨by decide, by decide, by decide⟩,
    ⟨by decide, by decide, by decide⟩, by decide, by decide, by decide⟩

theorem border_glyph_alignment_witness :
    (month_border_chars febLayout)[29]? = some '┬' ∧
    (separator_chars calWork febLayout (some 2))[29]? = some '┘' ∧
    (separator_before_month_chars febLayout)[29]? = some '┌' := by
  have h := border_glyph_alignment calWork (some 2) febLayout febLayout febLayout
    3 2 2 (by decide) (by decide) (by decide) (by decide) (by decide)
  exact ⟨h.1.1, h.2.1.1, h.2.2.1⟩

/-- C9: `render_to_string` restores the NO_COLOR state to exactly its prior
value — a set variable keeps its value, an unset variable stays unset — so
consecutive or nested string renders leave the suppression state as it was
before the first call. -/
theorem render_to_string_restores_env (env : Option String) :
    render_to_string_env env = env ∧
    render_to_string_env (render_to_string_env env) = env ∧
    (∀ val, render_to_string_env (some val) = some val) ∧
    render_to_string_env none = none := by
  refine ⟨?_, ?_, fun val => rfl, rfl⟩ <;> cases env <;> rfl

end CompactCalendar

